import Mathlib

/-!
Verification of the SemiRBM implementation (deepbelief/semirbm.py).

The numpy matrices of the source are embedded as `Mat`: a pair of extents
together with a total entry function `ℕ → ℕ → ℝ`.  Entries outside the
extents are irrelevant to the claims, which always quantify over indices in
range or over formula-defined entries.  All stochastic draws of the source
(`np.random.rand`, `np.random.randn`, `np.random.permutation`) are passed in
explicitly as oracle arguments, so every method becomes a pure function from
the instance state, its arguments and the draws to the new state and result.
-/

/-- Dense real matrix with explicit extents and a total entry function. -/
@[ext]
structure Mat where
  rows : ℕ
  cols : ℕ
  entry : ℕ → ℕ → ℝ

namespace Mat

/-- Matrix product (`*` on `np.matrix`): sum over the left factor's columns. -/
noncomputable def mul (A B : Mat) : Mat :=
  ⟨A.rows, B.cols, fun i j => ∑ k ∈ Finset.range A.cols, A.entry i k * B.entry k j⟩

/-- Transpose, `A.T`. -/
def transpose (A : Mat) : Mat := ⟨A.cols, A.rows, fun i j => A.entry j i⟩

/-- Elementwise sum of two same-shaped matrices. -/
noncomputable def add (A B : Mat) : Mat :=
  ⟨A.rows, A.cols, fun i j => A.entry i j + B.entry i j⟩

/-- Elementwise difference. -/
noncomputable def sub (A B : Mat) : Mat :=
  ⟨A.rows, A.cols, fun i j => A.entry i j - B.entry i j⟩

/-- numpy broadcast of a column vector over all columns of `A` (`A + v`). -/
noncomputable def addCol (A v : Mat) : Mat :=
  ⟨A.rows, A.cols, fun i j => A.entry i j + v.entry i 0⟩

/-- Scalar multiple. -/
noncomputable def smul (r : ℝ) (A : Mat) : Mat :=
  ⟨A.rows, A.cols, fun i j => r * A.entry i j⟩

/-- Elementwise map. -/
def map (f : ℝ → ℝ) (A : Mat) : Mat := ⟨A.rows, A.cols, fun i j => f (A.entry i j)⟩

/-- Source `np.zeros([r, c])`. -/
def zeros (r c : ℕ) : Mat := ⟨r, c, fun _ _ => 0⟩

/-- Source `np.zeros_like(A)`. -/
def zerosLike (A : Mat) : Mat := zeros A.rows A.cols

/-- Elementwise `1 - A` (numpy `1. - A`). -/
noncomputable def oneSub (A : Mat) : Mat := ⟨A.rows, A.cols, fun i j => 1 - A.entry i j⟩

/-- Source `np.triu(A)`: keep entries on or above the diagonal. -/
def triu (A : Mat) : Mat :=
  ⟨A.rows, A.cols, fun i j => if i ≤ j then A.entry i j else 0⟩

/-- Source `np.diag(np.diag(A))`: the diagonal of `A` as a diagonal matrix. -/
def diagDiag (A : Mat) : Mat :=
  ⟨A.rows, A.cols, fun i j => if i = j then A.entry i j else 0⟩

/-- Source `(np.random.rand(*P.shape) < P).astype(...)`: elementwise comparison of a
fresh uniform draw `U i j` against the probability `P i j`, cast to `0`/`1`. -/
noncomputable def bernoulli (U : ℕ → ℕ → ℝ) (P : Mat) : Mat :=
  ⟨P.rows, P.cols, fun i j => if U i j < P.entry i j then 1 else 0⟩

/-- Slicing `A[:, a:b]`: the block of columns `a ≤ j < b`. -/
def sliceCols (A : Mat) (a b : ℕ) : Mat :=
  ⟨A.rows, b - a, fun i j => A.entry i (a + j)⟩

end Mat

/-- The logistic function; the source writes it as `1./(1.+np.exp(-z))`. -/
noncomputable def sigmoid (z : ℝ) : ℝ := 1 / (1 + Real.exp (-z))

/-- The two sampling-method constants of `AbstractBM` that `SemiRBM`
dispatches on (`AbstractBM.MF` and `AbstractBM.GIBBS`). -/
inductive SamplingMethod where
  | MF : SamplingMethod
  | GIBBS : SamplingMethod
deriving DecidableEq

/-- The mutable state of a `SemiRBM` instance: the fields inherited from
`AbstractBM` (weights `W`, biases `b`, `c`, their momenta, the cached states
`X`, `Y`, `P`, `Q`, the persistent chains `pX`, `pY`, the base
hyperparameters) together with the lateral parameters `L`, `dL`, the lateral
hyperparameters of `SemiRBM.__init__`, and the optional AIS importance
samples and log-weights attached externally as `_ais_samples` /
`_ais_logweights` (absent exactly when `hasattr` fails). -/
@[ext]
structure SemiRBM where
  num_visibles : ℕ
  num_hiddens : ℕ
  W : Mat
  b : Mat
  c : Mat
  dW : Mat
  db : Mat
  dc : Mat
  X : Mat
  Y : Mat
  P : Mat
  Q : Mat
  pX : Mat
  pY : Mat
  learning_rate : ℝ
  momentum : ℝ
  weight_decay : ℝ
  cd_steps : ℕ
  persistent : Bool
  sampling_method : SamplingMethod
  learning_rate_lateral : ℝ
  momentum_lateral : ℝ
  weight_decay_lateral : ℝ
  damping : ℝ
  num_lateral_updates : ℕ
  L : Mat
  dL : Mat
  ais : Option (Mat × Mat)

namespace SemiRBM

/-- The lateral weight matrix built by `SemiRBM.__init__` from the standard
normal draw `R` (lines 54-55):
`L = randn(nv, nv) / nv / 200` followed by
`L = triu(L) + triu(L).T - 2 * diag(diag(L))`. -/
noncomputable def initL (nv : ℕ) (R : ℕ → ℕ → ℝ) : Mat :=
  let L0 : Mat := ⟨nv, nv, fun i j => R i j / nv / 200⟩
  ((L0.triu.add L0.triu.transpose)).sub (L0.diagDiag.smul 2)

/-- Modelled from the spec: the state installed by `AbstractBM.__init__`
(the base class is not part of the sources).  Per the spec it owns the
visible-hidden weight matrix `W`, the bias vectors `b` and `c`, the momentum
accumulators `dW`, `db`, `dc`, the cached states and persistent chains, and
the base hyperparameters `learning_rate`, `momentum`, `weight_decay`,
`cd_steps` and the `persistent` flag; the concrete values are left
arbitrary. -/
structure AbstractBMInit where
  W : Mat
  b : Mat
  c : Mat
  dW : Mat
  db : Mat
  dc : Mat
  X : Mat
  Y : Mat
  P : Mat
  Q : Mat
  pX : Mat
  pY : Mat
  learning_rate : ℝ
  momentum : ℝ
  weight_decay : ℝ
  cd_steps : ℕ
  persistent : Bool

/-- Constructor `SemiRBM.__init__(num_visibles, num_hiddens)` (lines 32-56): the base
initializer runs first, then the lateral hyperparameters get their defaults
(`learning_rate_lateral = 0.01`, `momentum_lateral = 0.5`,
`weight_decay_lateral = 0`, `damping = 0.2`, `num_lateral_updates = 20`,
`sampling_method = AbstractBM.MF`), and the lateral parameters are created:
`L` from the random draw `R` and `dL = np.zeros_like(L)`. -/
noncomputable def init (nv nh : ℕ) (R : ℕ → ℕ → ℝ) (base : AbstractBMInit) : SemiRBM where
  num_visibles := nv
  num_hiddens := nh
  W := base.W
  b := base.b
  c := base.c
  dW := base.dW
  db := base.db
  dc := base.dc
  X := base.X
  Y := base.Y
  P := base.P
  Q := base.Q
  pX := base.pX
  pY := base.pY
  learning_rate := base.learning_rate
  momentum := base.momentum
  weight_decay := base.weight_decay
  cd_steps := base.cd_steps
  persistent := base.persistent
  sampling_method := SamplingMethod.MF
  learning_rate_lateral := 1 / 100
  momentum_lateral := 1 / 2
  weight_decay_lateral := 0
  damping := 1 / 5
  num_lateral_updates := 20
  L := initL nv R
  dL := (initL nv R).zerosLike
  ais := none

/-- The hidden activation probability `1./(1.+np.exp(-self.W.T * X - self.c))`
computed identically in `forward` (line 66) and `_clogprob_hid_vis`
(line 239). -/
noncomputable def condQ (s : SemiRBM) (X : Mat) : Mat :=
  ⟨s.W.cols, X.cols, fun i j =>
    1 / (1 + Real.exp (-(s.W.transpose.mul X).entry i j - s.c.entry i 0))⟩

/-- Method `SemiRBM.forward(X=None)` (lines 60-69).  `U` is the uniform draw
`np.random.rand(*Q.shape)`.  Returns the new instance state and the returned
matrix. -/
noncomputable def forward (s : SemiRBM) (Xopt : Option Mat) (U : ℕ → ℕ → ℝ) :
    SemiRBM × Mat :=
  let X := Xopt.getD s.X
  let Q := condQ s X
  let Y := Mat.bernoulli U Q
  ({s with Q := Q, Y := Y}, Y)

/-- The hidden-state argument resolution of `backward` (lines 88-91):
`Y = self.Y` when the argument is omitted. -/
def backwardY (s : SemiRBM) (Yopt : Option Mat) : Mat := Yopt.getD s.Y

/-- The visible-state resolution of `backward` (lines 93-96): an omitted `X`
is replaced by `np.zeros([self.X.shape[0], Y.shape[1]])`. -/
def backwardX (s : SemiRBM) (Yopt Xopt : Option Mat) : Mat :=
  match Xopt with
  | none => Mat.zeros s.X.rows (backwardY s Yopt).cols
  | some X => X

/-- Line 99, `dynamic_bias = self.W * Y + self.b`; `b` broadcasts over the
columns. -/
noncomputable def dynamicBias (s : SemiRBM) (Y : Mat) : Mat := (s.W.mul Y).addCol s.b

/-- The initial mean-field probability
`self.P = 1./(1.+np.exp(-dynamic_bias - self.L*self.X))` (line 102). -/
noncomputable def mfInitP (s : SemiRBM) (Y X : Mat) : Mat :=
  ⟨(dynamicBias s Y).rows, (dynamicBias s Y).cols, fun i j =>
    1 / (1 + Real.exp (-(dynamicBias s Y).entry i j - (s.L.mul X).entry i j))⟩

/-- One parallel mean-field update of the loop body (line 106):
`P = damping*P + (1.-damping) * 1./(1.+np.exp(-dynamic_bias - L*P))`. -/
noncomputable def mfStep (s : SemiRBM) (db P : Mat) : Mat :=
  ⟨P.rows, P.cols, fun i j =>
    s.damping * P.entry i j +
      (1 - s.damping) * (1 / (1 + Real.exp (-db.entry i j - (s.L.mul P).entry i j)))⟩

/-- One visible unit's update during a sequential Gibbs sweep (lines 117-118):
row `i` of `P` is recomputed from the current `X` and row `i` of `X` is
resampled immediately.  `u` is the fresh draw `np.random.rand(1, Y.shape[1])`. -/
noncomputable def gibbsRowUpdate (s : SemiRBM) (db : Mat) (u : ℕ → ℝ) (PX : Mat × Mat)
    (i : ℕ) : Mat × Mat :=
  let P := PX.1
  let X := PX.2
  let Pnew : Mat := ⟨P.rows, P.cols, fun i' j =>
    if i' = i then
      1 / (1 + Real.exp (-db.entry i j - ∑ t ∈ Finset.range s.L.cols, s.L.entry i t * X.entry t j))
    else P.entry i' j⟩
  let Xnew : Mat := ⟨X.rows, X.cols, fun i' j =>
    if i' = i then (if u j < Pnew.entry i j then 1 else 0) else X.entry i' j⟩
  (Pnew, Xnew)

/-- The randomness consumed by one `backward` call: the uniform draw used by
the mean-field thresholding, and — for the sequential Gibbs branch — the
visitation order `np.random.permutation(len(self.X))` of each sweep together
with the per-sweep, per-unit uniform draws. -/
structure BackwardRand where
  U : ℕ → ℕ → ℝ
  perm : ℕ → List ℕ
  Ug : ℕ → ℕ → ℕ → ℝ

/-- Method `SemiRBM.backward(Y=None, X=None)` (lines 73-120).  Dispatches on
`self.sampling_method`: the mean-field branch iterates
`num_lateral_updates` damped parallel updates starting from `mfInitP` and
thresholds the result; the sequential Gibbs branch starts from
`P = np.zeros_like(X)` and performs `num_lateral_updates + 1` full sweeps in
the random orders supplied by `r.perm`.  Returns the new state and the
returned matrix. -/
noncomputable def backward (s : SemiRBM) (Yopt Xopt : Option Mat) (r : BackwardRand) :
    SemiRBM × Mat :=
  let Y := backwardY s Yopt
  let X := backwardX s Yopt Xopt
  let db := dynamicBias s Y
  match s.sampling_method with
  | SamplingMethod.MF =>
    let P := (List.range s.num_lateral_updates).foldl (fun P _ => mfStep s db P) (mfInitP s Y X)
    let Xn := Mat.bernoulli r.U P
    ({s with X := Xn, P := P}, Xn)
  | SamplingMethod.GIBBS =>
    let PX := (List.range (s.num_lateral_updates + 1)).foldl
      (fun PX k => (r.perm k).foldl (fun PX i => gibbsRowUpdate s db (r.Ug k i) PX i) PX)
      (Mat.zerosLike X, X)
    ({s with X := PX.2, P := PX.1}, PX.2)

/-- The randomness consumed by one negative-phase step of `train`
(one `backward` followed by one `forward`). -/
structure NegRand where
  bw : BackwardRand
  Uf : ℕ → ℕ → ℝ

/-- One step of the negative phase (lines 143-145): `self.backward()` then
`self.forward()`, both on cached state. -/
noncomputable def negStep (s : SemiRBM) (r : NegRand) : SemiRBM :=
  (forward (backward s none none r.bw).1 none r.Uf).1

/-- The negative phase `for t in range(cd_steps): backward(); forward()`:
`negPhase o n s` performs the first `n` steps, step `t` drawing from `o t`. -/
noncomputable def negPhase (o : ℕ → NegRand) : ℕ → SemiRBM → SemiRBM
  | 0, s => s
  | n + 1, s => negStep (negPhase o n s) (o n)

/-- The persistent-chain bookkeeping of `train` (lines 134-140), executed
after the positive phase when `self.persistent` holds: reset `pX`, `pY` to
zero matrices of the batch shape when the batch column count differs from the
cached chains' column count, then load the chains as the current state. -/
noncomputable def persistentLoad (s : SemiRBM) (X : Mat) : SemiRBM :=
  if s.persistent then
    if X.cols ≠ s.pX.cols then
      let pX := Mat.zerosLike X
      let pY := Mat.zerosLike s.Q
      {s with pX := pX, pY := pY, X := pX, Y := pY}
    else
      {s with X := s.pX, Y := s.pY}
  else s

/-- Lines 147-149: after the negative phase a persistent call snapshots the
final chain state back into `pX`, `pY`. -/
noncomputable def storeChains (s : SemiRBM) : SemiRBM :=
  if s.persistent then {s with pX := s.X, pY := s.Y} else s

/-- The parameter updates of the mean-field branch of `train`
(lines 152-165), written entrywise; `X` is the training batch and `Q` the
snapshot of the positive-phase posterior.  `dL` has its diagonal zeroed
(`self.dL -= np.diag(np.diag(self.dL))`) before all four deltas are added to
their parameters. -/
noncomputable def paramUpdate (s : SemiRBM) (X Q : Mat) : SemiRBM :=
  let n : ℝ := X.cols
  let dW : Mat := ⟨s.W.rows, s.W.cols, fun i j =>
    s.learning_rate * ((X.mul Q.transpose).entry i j - (s.P.mul s.Y.transpose).entry i j) / n
      - s.learning_rate * s.weight_decay * s.W.entry i j + s.momentum * s.dW.entry i j⟩
  let db : Mat := ⟨s.b.rows, s.b.cols, fun i j =>
    s.learning_rate * ((∑ t ∈ Finset.range X.cols, (X.entry i t - s.P.entry i t)) / n)
      + s.momentum * s.db.entry i j⟩
  let dc : Mat := ⟨s.c.rows, s.c.cols, fun i j =>
    s.learning_rate * ((∑ t ∈ Finset.range Q.cols, (Q.entry i t - s.Y.entry i t)) / n)
      + s.momentum * s.dc.entry i j⟩
  let dL0 : Mat := ⟨s.L.rows, s.L.cols, fun i j =>
    s.learning_rate_lateral *
        ((X.mul X.transpose).entry i j - (s.P.mul s.P.transpose).entry i j) / n
      - s.learning_rate_lateral * s.weight_decay_lateral * s.L.entry i j
      + s.momentum_lateral * s.dL.entry i j⟩
  let dL := dL0.sub dL0.diagDiag
  {s with
    dW := dW, db := db, dc := dc, dL := dL,
    W := s.W.add dW, b := s.b.add db, c := s.c.add dc, L := s.L.add dL}

/-- Modelled from the spec: the outcome of one `AbstractBM.train(self, X)`
call (the base class is not part of the sources).  Per the spec the base
routine performs its own CD/PCD cycle and updates the RBM parameters `W`,
`b`, `c`, their momenta and the cached chain state; it knows nothing of the
lateral parameters `L`, `dL`, which it leaves untouched.  The new values of
the fields it may write are taken as an oracle. -/
structure AbstractBMTrainResult where
  W : Mat
  b : Mat
  c : Mat
  dW : Mat
  db : Mat
  dc : Mat
  X : Mat
  Y : Mat
  P : Mat
  Q : Mat
  pX : Mat
  pY : Mat

/-- Method `SemiRBM.train(X)` (lines 124-175).  The mean-field branch runs the
positive phase, snapshots `Q`, does the persistent-chain bookkeeping, runs
`cd_steps` negative-phase steps, stores the chains back and applies the
parameter updates.  The other branch delegates the RBM update to
`AbstractBM.train` (the oracle `base`) and then applies the lateral update of
lines 171-175, in which the model statistic is `self.X * self.X.T` with the
`X` state left by the base call. -/
noncomputable def train (s : SemiRBM) (X : Mat) (U0 : ℕ → ℕ → ℝ) (o : ℕ → NegRand)
    (base : AbstractBMTrainResult) : SemiRBM :=
  match s.sampling_method with
  | SamplingMethod.MF =>
    let s1 := (forward s (some X) U0).1
    let Q := s1.Q
    let s4 := storeChains (negPhase o s.cd_steps (persistentLoad s1 X))
    paramUpdate s4 X Q
  | SamplingMethod.GIBBS =>
    let s1 := {s with
      W := base.W, b := base.b, c := base.c, dW := base.dW, db := base.db, dc := base.dc,
      X := base.X, Y := base.Y, P := base.P, Q := base.Q, pX := base.pX, pY := base.pY}
    let n : ℝ := X.cols
    let dL0 : Mat := ⟨s1.L.rows, s1.L.cols, fun i j =>
      s.learning_rate_lateral *
          ((X.mul X.transpose).entry i j - (s1.X.mul s1.X.transpose).entry i j) / n
        - s.learning_rate_lateral * s.weight_decay_lateral * s1.L.entry i j
        + s.momentum_lateral * s1.dL.entry i j⟩
    let dL := dL0.sub dL0.diagDiag
    {s1 with dL := dL, L := s1.L.add dL}

/-- Method `SemiRBM._clogprob_hid_vis(X, Y, all_pairs)` (lines 235-244): conditional
log-probability of hidden states given visible states.  The `all_pairs`
branch is `np.log(Q).T * Y + np.log(1. - Q).T * (1. - Y)`; the per-pair
branch is `np.sum(np.log(2 * np.multiply(Q, Y) - Y - (Q - 1)), 0)`. -/
noncomputable def clogprob_hid_vis (s : SemiRBM) (X Y : Mat) (all_pairs : Bool) : Mat :=
  let Q := condQ s X
  if all_pairs then
    ((Q.map Real.log).transpose.mul Y).add
      ((Q.map (fun q => Real.log (1 - q))).transpose.mul Y.oneSub)
  else
    ⟨1, Y.cols, fun _ j =>
      ∑ i ∈ Finset.range Q.rows,
        Real.log (2 * (Q.entry i j * Y.entry i j) - Y.entry i j - (Q.entry i j - 1))⟩

/-- Line 217, `max_samples = min(1E7 / num_ais_samples, Y.shape[1])`.  The
division is float division; the value is modelled as an exact rational. -/
def maxSamples (numAis cols : ℕ) : ℚ := min (10 ^ 7 / (numAis : ℚ)) (cols : ℚ)

/-- Line 222, `int(np.ceil(Y.shape[1] / max_samples))`: the number of
batches of the loop in `_ulogprob_hid`. -/
def numBatches (numAis cols : ℕ) : ℕ :=
  Nat.ceil ((cols : ℚ) / maxSamples numAis cols)

/-- The first column of batch `k`: the slice index `s = k * max_samples`
(line 223) is a float and numpy truncates it to an integer when slicing. -/
def batchStart (numAis cols k : ℕ) : ℕ :=
  Nat.floor ((k : ℚ) * maxSamples numAis cols)

/-- One past the last column of batch `k`: the truncation of
`s + n` where `n = min(max_samples, Y.shape[1] - s)` (line 224), i.e. of
`min((k + 1) * max_samples, Y.shape[1])`. -/
def batchStop (numAis cols k : ℕ) : ℕ :=
  Nat.floor (min (((k : ℚ) + 1) * maxSamples numAis cols) (cols : ℚ))

/-- Modelled from the spec: `utils.logsumexp(A, 0)` (the utilities module is
not part of the sources).  Per the spec it is a numerically stable
log-sum-exp reduction along the given axis: the column maximum is factored
out before exponentiating. -/
noncomputable def logsumexp (n : ℕ) (v : ℕ → ℝ) : ℝ :=
  if h : (Finset.range n).Nonempty then
    (Finset.range n).sup' h v +
      Real.log (∑ i ∈ Finset.range n, Real.exp (v i - (Finset.range n).sup' h v))
  else 0

/-- Reduction `utils.logsumexp(A, 0)` as a row matrix, one value per column of `A`. -/
noncomputable def lseRow (A : Mat) : Mat :=
  ⟨1, A.cols, fun _ j => logsumexp A.rows (fun i => A.entry i j)⟩

/-- The cross table of batch `k` of `_ulogprob_hid` (lines 227-229):
`self._clogprob_hid_vis(self._ais_samples, Y[:, s:s+n], all_pairs=True)
 + self._ais_logweights.T`, the log-weight column broadcasting over the
batch columns. -/
noncomputable def uhBatch (s : SemiRBM) (samples lw Y : Mat) (k : ℕ) : Mat :=
  (clogprob_hid_vis s samples
      (Y.sliceCols (batchStart samples.cols Y.cols k) (batchStop samples.cols Y.cols k))
      true).addCol lw.transpose

/-- The slice assignments `ulogprobs_hid[0, s:s+n] = utils.logsumexp(..., 0)`
of the loop in `_ulogprob_hid`: starting from `np.zeros([1, Y.shape[1]])`,
batch `k` overwrites positions `batchStart k ≤ j < batchStop k` with the
log-sum-exp of its cross table (position `j` holds column `j - batchStart k`
of the batch). -/
noncomputable def uhLoop (s : SemiRBM) (samples lw Y : Mat) : ℕ → ℕ → ℝ
  | 0 => fun _ => 0
  | k + 1 => fun j =>
    if batchStart samples.cols Y.cols k ≤ j ∧ j < batchStop samples.cols Y.cols k then
      (lseRow (uhBatch s samples lw Y k)).entry 0 (j - batchStart samples.cols Y.cols k)
    else uhLoop s samples lw Y k j

/-- Method `SemiRBM._ulogprob_hid(Y)` (lines 203-231).  Raises (returns `none`) when
no AIS samples are attached; otherwise runs the batched log-sum-exp loop and
subtracts `np.log(num_ais_samples)`. -/
noncomputable def ulogprob_hid (s : SemiRBM) (Y : Mat) : Option Mat :=
  match s.ais with
  | none => none
  | some (samples, lw) =>
    some ⟨1, Y.cols, fun _ j =>
      uhLoop s samples lw Y (numBatches samples.cols Y.cols) j - Real.log samples.cols⟩

/-- Method `SemiRBM._centropy_hid_vis(X)` (lines 248-255): runs `forward(X)` (with
uniform draw `U`), then returns the per-column entropy
`-np.sum(multiply(Q, log(Q)) + multiply(1 - Q, log(1 - Q)), 0)` of the
cached `Q`. -/
noncomputable def centropy_hid_vis (s : SemiRBM) (X : Mat) (U : ℕ → ℕ → ℝ) :
    SemiRBM × Mat :=
  let s1 := (forward s (some X) U).1
  (s1, ⟨1, s1.Q.cols, fun _ j =>
    -∑ i ∈ Finset.range s1.Q.rows,
      (s1.Q.entry i j * Real.log (s1.Q.entry i j) +
        (1 - s1.Q.entry i j) * Real.log (1 - s1.Q.entry i j))⟩)

/-- A change of the public configuration fields between calls (in Python any
of the hyperparameter attributes may be reassigned, e.g.
`model.sampling_method = AbstractBM.GIBBS`, and the AIS driver attaches
`_ais_samples` / `_ais_logweights`).  The parameters and cached matrices are
not touched. -/
def reconfig (s : SemiRBM) (lr mom wd lrl moml wdl damp : ℝ) (cd nlu : ℕ)
    (pers : Bool) (sm : SamplingMethod) (a : Option (Mat × Mat)) : SemiRBM :=
  {s with
    learning_rate := lr, momentum := mom, weight_decay := wd,
    learning_rate_lateral := lrl, momentum_lateral := moml, weight_decay_lateral := wdl,
    damping := damp, cd_steps := cd, num_lateral_updates := nlu,
    persistent := pers, sampling_method := sm, ais := a}

/-- The states reachable from construction by any sequence of `train` calls
(with any batches and random draws) interleaved with arbitrary
reconfiguration of the hyperparameters, in particular of the sampling
mode. -/
inductive Reachable : SemiRBM → Prop where
  | init : ∀ nv nh R base, Reachable (init nv nh R base)
  | train : ∀ s X U0 o base, Reachable s → Reachable (train s X U0 o base)
  | reconfig : ∀ s lr mom wd lrl moml wdl damp cd nlu pers sm a, Reachable s →
      Reachable (reconfig s lr mom wd lrl moml wdl damp cd nlu pers sm a)

end SemiRBM

/-! ## Basic matrix lemmas -/

namespace Mat

/-- Entrywise symmetry. -/
def Symm (A : Mat) : Prop := ∀ i j, A.entry i j = A.entry j i

/-- All-zero diagonal. -/
def ZeroDiag (A : Mat) : Prop := ∀ i, A.entry i i = 0

theorem symm_mul_self_transpose (A : Mat) : (A.mul A.transpose).Symm := by
  intro i j
  show (∑ k ∈ Finset.range A.cols, A.entry i k * A.entry j k) =
    ∑ k ∈ Finset.range A.cols, A.entry j k * A.entry i k
  exact Finset.sum_congr rfl fun k _ => mul_comm (A.entry i k) (A.entry j k)

theorem symm_add {A B : Mat} (hA : A.Symm) (hB : B.Symm) : (A.add B).Symm := by
  intro i j
  show A.entry i j + B.entry i j = A.entry j i + B.entry j i
  rw [hA i j, hB i j]

theorem symm_sub {A B : Mat} (hA : A.Symm) (hB : B.Symm) : (A.sub B).Symm := by
  intro i j
  show A.entry i j - B.entry i j = A.entry j i - B.entry j i
  rw [hA i j, hB i j]

theorem symm_diagDiag (A : Mat) : A.diagDiag.Symm := by
  intro i j
  show (if i = j then A.entry i j else 0) = (if j = i then A.entry j i else 0)
  by_cases h : i = j
  · subst h; rfl
  · rw [if_neg h, if_neg (Ne.symm h)]

theorem sub_diagDiag_zeroDiag (A : Mat) : (A.sub A.diagDiag).ZeroDiag := by
  intro i
  show A.entry i i - (if i = i then A.entry i i else 0) = 0
  simp

theorem zeroDiag_add {A B : Mat} (hA : A.ZeroDiag) (hB : B.ZeroDiag) :
    (A.add B).ZeroDiag := by
  intro i
  show A.entry i i + B.entry i i = 0
  rw [hA i, hB i, add_zero]

end Mat

/-- Folding a constant function over `List.range n` is `n`-fold iteration:
the loop `for k in range(n): P = f(P)` computes `f^[n]`. -/
theorem foldl_range_const {α : Type} (f : α → α) (a : α) (n : ℕ) :
    (List.range n).foldl (fun x _ => f x) a = f^[n] a := by
  induction n with
  | zero => simp
  | succ n ih =>
    rw [List.range_succ, List.foldl_append, ih, List.foldl_cons, List.foldl_nil,
      Function.iterate_succ_apply']

/-- The damped fixed-point map the spec describes:
`P ← damping·P + (1-damping)·sigmoid(dynamic_bias + L·P)`. -/
noncomputable def dampedUpdate (s : SemiRBM) (db P : Mat) : Mat :=
  ⟨P.rows, P.cols, fun i j =>
    s.damping * P.entry i j +
      (1 - s.damping) * sigmoid (db.entry i j + (s.L.mul P).entry i j)⟩

/-- The loop body of the mean-field branch is exactly the spec's damped
update. -/
theorem mfStep_eq_dampedUpdate (s : SemiRBM) (db P : Mat) :
    SemiRBM.mfStep s db P = dampedUpdate s db P := by
  unfold SemiRBM.mfStep dampedUpdate sigmoid
  congr 1
  funext i j
  ring_nf

/-! ## Concrete states used by witnesses and counterexamples -/

/-- A zero uniform draw. -/
def zeroDraw : ℕ → ℕ → ℝ := fun _ _ => 0

/-- Trivial randomness for a `backward` call. -/
def trivBackwardRand : SemiRBM.BackwardRand := ⟨zeroDraw, fun _ => [], fun _ _ _ => 0⟩

/-- Trivial randomness for a negative-phase step. -/
def trivNegRand : SemiRBM.NegRand := ⟨trivBackwardRand, zeroDraw⟩

/-- A small concrete instance state: one visible and one hidden unit, all
matrices zero, mean-field mode, one CD step, persistent chains on. -/
def trivState : SemiRBM where
  num_visibles := 1
  num_hiddens := 1
  W := Mat.zeros 1 1
  b := Mat.zeros 1 1
  c := Mat.zeros 1 1
  dW := Mat.zeros 1 1
  db := Mat.zeros 1 1
  dc := Mat.zeros 1 1
  X := Mat.zeros 1 1
  Y := Mat.zeros 1 1
  P := Mat.zeros 1 1
  Q := Mat.zeros 1 1
  pX := Mat.zeros 1 1
  pY := Mat.zeros 1 1
  learning_rate := 0
  momentum := 0
  weight_decay := 0
  cd_steps := 1
  persistent := true
  sampling_method := SamplingMethod.MF
  learning_rate_lateral := 0
  momentum_lateral := 0
  weight_decay_lateral := 0
  damping := 0
  num_lateral_updates := 0
  L := Mat.zeros 1 1
  dL := Mat.zeros 1 1
  ais := none

/-! ## C5: the forward sampler -/

/-- Claim C5: for every visible-state matrix `X` (the explicit argument, or
the cached instance state when omitted), `forward` computes
`Q = sigmoid(Wᵀ·X + c)` elementwise, draws each entry of `Y` by comparing a
per-entry uniform draw against the corresponding entry of `Q` (the entry is
`1` exactly when the draw is strictly below the probability), stores `Q` and
`Y` on the instance (leaving the cached visible state untouched), and
returns the sampled `Y`. -/
theorem claim_C5 (s : SemiRBM) (Xopt : Option Mat) (U : ℕ → ℕ → ℝ) :
    (∀ i j, (SemiRBM.forward s Xopt U).1.Q.entry i j =
        sigmoid ((s.W.transpose.mul (Xopt.getD s.X)).entry i j + s.c.entry i 0)) ∧
    (∀ i j, (SemiRBM.forward s Xopt U).1.Y.entry i j =
        if U i j < (SemiRBM.forward s Xopt U).1.Q.entry i j then 1 else 0) ∧
    (∀ i j, (SemiRBM.forward s Xopt U).1.Y.entry i j = 1 ↔
        U i j < (SemiRBM.forward s Xopt U).1.Q.entry i j) ∧
    (SemiRBM.forward s Xopt U).2 = (SemiRBM.forward s Xopt U).1.Y ∧
    (SemiRBM.forward s Xopt U).1.X = s.X := by
  refine ⟨fun i j => ?_, fun i j => rfl, fun i j => ?_, rfl, rfl⟩
  · show 1 / (1 + Real.exp (-(s.W.transpose.mul (Xopt.getD s.X)).entry i j - s.c.entry i 0)) = _
    unfold sigmoid
    ring_nf
  · show (if U i j < (SemiRBM.condQ s (Xopt.getD s.X)).entry i j then (1 : ℝ) else 0) = 1 ↔
      U i j < (SemiRBM.condQ s (Xopt.getD s.X)).entry i j
    by_cases h : U i j < (SemiRBM.condQ s (Xopt.getD s.X)).entry i j
    · simp [h]
    · simp [h]

/-! ## C6: the AIS precondition of `_ulogprob_hid` -/

/-- Claim C6: `_ulogprob_hid` fails (raises, producing no value and touching
no state) exactly when no AIS importance samples are attached to the
instance; with samples and log-weights attached the precondition error is
not raised. -/
theorem claim_C6 (s : SemiRBM) (Y : Mat) :
    SemiRBM.ulogprob_hid s Y = none ↔ s.ais = none := by
  rcases h : s.ais with _ | ⟨S, lw⟩ <;> simp [SemiRBM.ulogprob_hid, h]

/-! ## C4: the mean-field backward sampler -/

/-- Claim C4: in mean-field mode `backward` performs exactly
`num_lateral_updates` damped fixed-point updates
`P ← damping·P + (1-damping)·sigmoid(dynamic_bias + L·P)` with the dynamic
bias held fixed, starting from the initial probability matrix, and then
produces the binary visible sample by thresholding fresh per-entry uniform
draws against the final `P`: an entry of the returned `X` is `1` exactly
when the draw is strictly below the corresponding entry of `P`. -/
theorem claim_C4 (s : SemiRBM) (Yopt Xopt : Option Mat) (r : SemiRBM.BackwardRand)
    (hMF : s.sampling_method = SamplingMethod.MF) :
    (SemiRBM.backward s Yopt Xopt r).1.P =
      (dampedUpdate s (SemiRBM.dynamicBias s (SemiRBM.backwardY s Yopt)))^[s.num_lateral_updates]
        (SemiRBM.mfInitP s (SemiRBM.backwardY s Yopt) (SemiRBM.backwardX s Yopt Xopt)) ∧
    (∀ i j, (SemiRBM.backward s Yopt Xopt r).2.entry i j =
        if r.U i j < (SemiRBM.backward s Yopt Xopt r).1.P.entry i j then 1 else 0) ∧
    (∀ i j, (SemiRBM.backward s Yopt Xopt r).2.entry i j = 1 ↔
        r.U i j < (SemiRBM.backward s Yopt Xopt r).1.P.entry i j) ∧
    (SemiRBM.backward s Yopt Xopt r).1.X = (SemiRBM.backward s Yopt Xopt r).2 := by
  have hfun : SemiRBM.mfStep s (SemiRBM.dynamicBias s (SemiRBM.backwardY s Yopt)) =
      dampedUpdate s (SemiRBM.dynamicBias s (SemiRBM.backwardY s Yopt)) :=
    funext fun P => mfStep_eq_dampedUpdate s _ P
  refine ⟨?_, ?_, ?_, ?_⟩
  · simp only [SemiRBM.backward, hMF]
    rw [hfun, foldl_range_const]
  · intro i j
    simp only [SemiRBM.backward, hMF]
    rfl
  · intro i j
    simp only [SemiRBM.backward, hMF]
    generalize (List.range s.num_lateral_updates).foldl
        (fun P _ => SemiRBM.mfStep s (SemiRBM.dynamicBias s (SemiRBM.backwardY s Yopt)) P)
        (SemiRBM.mfInitP s (SemiRBM.backwardY s Yopt) (SemiRBM.backwardX s Yopt Xopt)) = F
    show (if r.U i j < F.entry i j then (1 : ℝ) else 0) = 1 ↔ r.U i j < F.entry i j
    by_cases h : r.U i j < F.entry i j
    · simp [h]
    · simp [h]
  · simp only [SemiRBM.backward, hMF]

/-- Witness for C4 at a concrete state. -/
theorem claim_C4_witness :
    trivState.sampling_method = SamplingMethod.MF ∧
    ((SemiRBM.backward trivState none none trivBackwardRand).1.P =
      (dampedUpdate trivState
          (SemiRBM.dynamicBias trivState (SemiRBM.backwardY trivState none)))^[trivState.num_lateral_updates]
        (SemiRBM.mfInitP trivState (SemiRBM.backwardY trivState none)
          (SemiRBM.backwardX trivState none none)) ∧
    (∀ i j, (SemiRBM.backward trivState none none trivBackwardRand).2.entry i j =
        if trivBackwardRand.U i j <
            (SemiRBM.backward trivState none none trivBackwardRand).1.P.entry i j
          then 1 else 0) ∧
    (∀ i j, (SemiRBM.backward trivState none none trivBackwardRand).2.entry i j = 1 ↔
        trivBackwardRand.U i j <
          (SemiRBM.backward trivState none none trivBackwardRand).1.P.entry i j) ∧
    (SemiRBM.backward trivState none none trivBackwardRand).1.X =
      (SemiRBM.backward trivState none none trivBackwardRand).2) :=
  ⟨rfl, claim_C4 trivState none none trivBackwardRand rfl⟩

/-! ## C2: the mean-field initialization of `backward` -/

/-- The concrete instance refuting claim C2: one visible and one hidden
unit, `W = 0`, `b = 1`, `L = 1`, cached visible state `X = 1`, cached hidden
state `Y = 0`, no damped updates (`num_lateral_updates = 0`), mean-field
mode. -/
def c2State : SemiRBM :=
  {trivState with
    b := ⟨1, 1, fun _ _ => 1⟩,
    L := ⟨1, 1, fun _ _ => 1⟩,
    X := ⟨1, 1, fun _ _ => 1⟩}

/-- Counterexample to claim C2 as stated.  The claim predicts that a
mean-field `backward` call with `X` omitted initializes
`P = sigmoid(-dynamic_bias - L·X)` with `X` the cached visible state.  At
`c2State` (where `num_lateral_updates = 0`, so the `P` left on the instance
is exactly the initialization) the code produces
`1/(1+exp(-1))` — it computes `sigmoid(+dynamic_bias + L·X)` and replaces
the omitted `X` by a zero matrix — while the claimed formula gives
`sigmoid(-1-1) = 1/(1+exp(2))`. -/
theorem claim_C2_counterexample :
    ¬ ((SemiRBM.backward c2State none none trivBackwardRand).1.P.entry 0 0 =
        sigmoid (-(SemiRBM.dynamicBias c2State (SemiRBM.backwardY c2State none)).entry 0 0 -
          (c2State.L.mul c2State.X).entry 0 0)) := by
  have hP : (SemiRBM.backward c2State none none trivBackwardRand).1.P.entry 0 0 =
      1 / (1 + Real.exp (-1)) := by
    show (SemiRBM.mfInitP c2State (SemiRBM.backwardY c2State none)
        (SemiRBM.backwardX c2State none none)).entry 0 0 = _
    unfold SemiRBM.mfInitP SemiRBM.dynamicBias SemiRBM.backwardY SemiRBM.backwardX
    simp [c2State, trivState, Mat.mul, Mat.addCol, Mat.zeros, Mat.transpose]
  have hR : sigmoid (-(SemiRBM.dynamicBias c2State (SemiRBM.backwardY c2State none)).entry 0 0 -
      (c2State.L.mul c2State.X).entry 0 0) = 1 / (1 + Real.exp 2) := by
    unfold sigmoid SemiRBM.dynamicBias SemiRBM.backwardY
    simp [c2State, trivState, Mat.mul, Mat.addCol, Mat.zeros, Mat.transpose]
    norm_num
  rw [hP, hR]
  have hexp : Real.exp (-1) < Real.exp 2 := Real.exp_lt_exp.mpr (by norm_num)
  have h2 : (0 : ℝ) < 1 + Real.exp (-1) := by positivity
  intro h
  have := (div_eq_div_iff (by positivity) (by positivity)).mp h
  nlinarith [Real.exp_pos (-1), Real.exp_pos 2]

/-- Claim C2 (amended): in mean-field mode `backward` initializes the
visible probability matrix as `P = sigmoid(dynamic_bias + L·X)` with
`dynamic_bias = W·Y + b`, where `X` is the explicit argument when one is
given, and otherwise a zero matrix whose row count is that of the cached
visible state and whose column count is that of `Y` (the cached visible
entries themselves are never read). -/
theorem claim_C2_amended (s : SemiRBM) (Yopt Xopt : Option Mat) :
    (∀ i j, (SemiRBM.mfInitP s (SemiRBM.backwardY s Yopt)
          (SemiRBM.backwardX s Yopt Xopt)).entry i j =
        sigmoid ((SemiRBM.dynamicBias s (SemiRBM.backwardY s Yopt)).entry i j +
          (s.L.mul (SemiRBM.backwardX s Yopt Xopt)).entry i j)) ∧
    SemiRBM.backwardX s Yopt none = Mat.zeros s.X.rows (SemiRBM.backwardY s Yopt).cols ∧
    (∀ X, SemiRBM.backwardX s Yopt (some X) = X) := by
  refine ⟨fun i j => ?_, rfl, fun X => rfl⟩
  show 1 / (1 + Real.exp (-(SemiRBM.dynamicBias s (SemiRBM.backwardY s Yopt)).entry i j -
      (s.L.mul (SemiRBM.backwardX s Yopt Xopt)).entry i j)) = _
  unfold sigmoid
  ring_nf

/-! ## C1: symmetry and zero diagonal of the lateral weights -/

theorem initL_symm (nv : ℕ) (R : ℕ → ℕ → ℝ) : (SemiRBM.initL nv R).Symm := by
  intro i j
  simp only [SemiRBM.initL, Mat.triu, Mat.add, Mat.transpose, Mat.sub, Mat.smul, Mat.diagDiag]
  by_cases h : i = j
  · subst h; ring
  · by_cases hij : i ≤ j
    · have hji : ¬ j ≤ i := fun hc => h (le_antisymm hij hc)
      simp [h, Ne.symm h, hij, hji]
    · have hji : j ≤ i := le_of_not_le hij
      simp [h, Ne.symm h, hij, hji]

theorem initL_zeroDiag (nv : ℕ) (R : ℕ → ℕ → ℝ) : (SemiRBM.initL nv R).ZeroDiag := by
  intro i
  simp only [SemiRBM.initL, Mat.triu, Mat.add, Mat.transpose, Mat.sub, Mat.smul, Mat.diagDiag]
  simp
  ring

theorem zeros_symm (r c : ℕ) : (Mat.zeros r c).Symm := fun _ _ => rfl

theorem zeros_zeroDiag (r c : ℕ) : (Mat.zeros r c).ZeroDiag := fun _ => rfl

/-- The invariant carried through training: the lateral weight matrix and
its momentum accumulator are both symmetric with zero diagonal. -/
def LInv (s : SemiRBM) : Prop := s.L.Symm ∧ s.L.ZeroDiag ∧ s.dL.Symm ∧ s.dL.ZeroDiag

theorem symm_sub_diagDiag {A : Mat} (hA : A.Symm) : (A.sub A.diagDiag).Symm :=
  Mat.symm_sub hA (Mat.symm_diagDiag A)

/-- The lateral gradient accumulator computed by both branches of `train`
(before its diagonal is zeroed) is symmetric whenever the current `L` and
`dL` are. -/
theorem dLmat_symm (lrl wdl moml n : ℝ) (X M L dL : Mat) (hL : L.Symm) (hdL : dL.Symm) :
    Mat.Symm ⟨L.rows, L.cols, fun i j =>
      lrl * ((X.mul X.transpose).entry i j - (M.mul M.transpose).entry i j) / n
        - lrl * wdl * L.entry i j + moml * dL.entry i j⟩ := by
  intro i j
  show lrl * ((X.mul X.transpose).entry i j - (M.mul M.transpose).entry i j) / n
      - lrl * wdl * L.entry i j + moml * dL.entry i j
    = lrl * ((X.mul X.transpose).entry j i - (M.mul M.transpose).entry j i) / n
      - lrl * wdl * L.entry j i + moml * dL.entry j i
  rw [Mat.symm_mul_self_transpose X i j, Mat.symm_mul_self_transpose M i j, hL i j, hdL i j]

theorem forward_L (s : SemiRBM) (Xopt : Option Mat) (U : ℕ → ℕ → ℝ) :
    (SemiRBM.forward s Xopt U).1.L = s.L := rfl

theorem forward_dL (s : SemiRBM) (Xopt : Option Mat) (U : ℕ → ℕ → ℝ) :
    (SemiRBM.forward s Xopt U).1.dL = s.dL := rfl

theorem backward_L (s : SemiRBM) (Yopt Xopt : Option Mat) (r : SemiRBM.BackwardRand) :
    (SemiRBM.backward s Yopt Xopt r).1.L = s.L := by
  rcases hsm : s.sampling_method <;> simp [SemiRBM.backward, hsm]

theorem backward_dL (s : SemiRBM) (Yopt Xopt : Option Mat) (r : SemiRBM.BackwardRand) :
    (SemiRBM.backward s Yopt Xopt r).1.dL = s.dL := by
  rcases hsm : s.sampling_method <;> simp [SemiRBM.backward, hsm]

theorem negStep_L (s : SemiRBM) (r : SemiRBM.NegRand) : (SemiRBM.negStep s r).L = s.L := by
  unfold SemiRBM.negStep
  rw [forward_L, backward_L]

theorem negStep_dL (s : SemiRBM) (r : SemiRBM.NegRand) : (SemiRBM.negStep s r).dL = s.dL := by
  unfold SemiRBM.negStep
  rw [forward_dL, backward_dL]

theorem negPhase_L (o : ℕ → SemiRBM.NegRand) (n : ℕ) (s : SemiRBM) :
    (SemiRBM.negPhase o n s).L = s.L := by
  induction n with
  | zero => rfl
  | succ n ih => rw [SemiRBM.negPhase, negStep_L, ih]

theorem negPhase_dL (o : ℕ → SemiRBM.NegRand) (n : ℕ) (s : SemiRBM) :
    (SemiRBM.negPhase o n s).dL = s.dL := by
  induction n with
  | zero => rfl
  | succ n ih => rw [SemiRBM.negPhase, negStep_dL, ih]

theorem persistentLoad_L (s : SemiRBM) (X : Mat) : (SemiRBM.persistentLoad s X).L = s.L := by
  unfold SemiRBM.persistentLoad
  by_cases hp : s.persistent
  · by_cases hc : X.cols ≠ s.pX.cols <;> simp [hp, hc]
  · simp [hp]

theorem persistentLoad_dL (s : SemiRBM) (X : Mat) : (SemiRBM.persistentLoad s X).dL = s.dL := by
  unfold SemiRBM.persistentLoad
  by_cases hp : s.persistent
  · by_cases hc : X.cols ≠ s.pX.cols <;> simp [hp, hc]
  · simp [hp]

theorem storeChains_L (s : SemiRBM) : (SemiRBM.storeChains s).L = s.L := by
  unfold SemiRBM.storeChains
  by_cases hp : s.persistent <;> simp [hp]

theorem storeChains_dL (s : SemiRBM) : (SemiRBM.storeChains s).dL = s.dL := by
  unfold SemiRBM.storeChains
  by_cases hp : s.persistent <;> simp [hp]

theorem paramUpdate_LInv (s : SemiRBM) (X Q : Mat) (hLs : s.L.Symm) (hLd : s.L.ZeroDiag)
    (hdLs : s.dL.Symm) (hdLd : s.dL.ZeroDiag) : LInv (SemiRBM.paramUpdate s X Q) := by
  have hsym := dLmat_symm s.learning_rate_lateral s.weight_decay_lateral s.momentum_lateral
    (X.cols : ℝ) X s.P s.L s.dL hLs hdLs
  refine ⟨?_, ?_, ?_, ?_⟩
  · exact Mat.symm_add hLs (symm_sub_diagDiag hsym)
  · exact Mat.zeroDiag_add hLd (Mat.sub_diagDiag_zeroDiag _)
  · exact symm_sub_diagDiag hsym
  · exact Mat.sub_diagDiag_zeroDiag _

/-- Every `train` call, in either sampling mode, preserves the lateral
invariant. -/
theorem train_LInv (s : SemiRBM) (X : Mat) (U0 : ℕ → ℕ → ℝ) (o : ℕ → SemiRBM.NegRand)
    (base : SemiRBM.AbstractBMTrainResult) (h : LInv s) :
    LInv (SemiRBM.train s X U0 o base) := by
  obtain ⟨hLs, hLd, hdLs, hdLd⟩ := h
  rcases hsm : s.sampling_method
  · -- mean-field branch
    have h4L : (SemiRBM.storeChains (SemiRBM.negPhase o s.cd_steps
        (SemiRBM.persistentLoad (SemiRBM.forward s (some X) U0).1 X))).L = s.L := by
      rw [storeChains_L, negPhase_L, persistentLoad_L, forward_L]
    have h4dL : (SemiRBM.storeChains (SemiRBM.negPhase o s.cd_steps
        (SemiRBM.persistentLoad (SemiRBM.forward s (some X) U0).1 X))).dL = s.dL := by
      rw [storeChains_dL, negPhase_dL, persistentLoad_dL, forward_dL]
    simp only [SemiRBM.train, hsm]
    exact paramUpdate_LInv _ X _ (by rw [h4L]; exact hLs) (by rw [h4L]; exact hLd)
      (by rw [h4dL]; exact hdLs) (by rw [h4dL]; exact hdLd)
  · -- Gibbs branch
    have hsym := dLmat_symm s.learning_rate_lateral s.weight_decay_lateral s.momentum_lateral
      (X.cols : ℝ) X base.X s.L s.dL hLs hdLs
    simp only [SemiRBM.train, hsm]
    refine ⟨?_, ?_, ?_, ?_⟩
    · exact Mat.symm_add hLs (symm_sub_diagDiag hsym)
    · exact Mat.zeroDiag_add hLd (Mat.sub_diagDiag_zeroDiag _)
    · exact symm_sub_diagDiag hsym
    · exact Mat.sub_diagDiag_zeroDiag _

/-- Claim C1: every state reachable by construction followed by any sequence
of `train` calls (in either sampling mode, under any reconfiguration of the
hyperparameters) has a lateral weight matrix `L` that equals its transpose
and has an all-zero diagonal. -/
theorem claim_C1 (s : SemiRBM) (h : SemiRBM.Reachable s) : s.L.Symm ∧ s.L.ZeroDiag := by
  have key : LInv s := by
    induction h with
    | init nv nh R base =>
      exact ⟨initL_symm nv R, initL_zeroDiag nv R,
        zeros_symm _ _, zeros_zeroDiag _ _⟩
    | train s X U0 o base _ ih => exact train_LInv s X U0 o base ih
    | reconfig s lr mom wd lrl moml wdl damp cd nlu pers sm a _ ih => exact ih
  exact ⟨key.1, key.2.1⟩

/-- Witness for C1: the invariant holds at a freshly constructed instance. -/
theorem claim_C1_witness :
    (SemiRBM.init 1 1 (fun _ _ => 0)
      ⟨Mat.zeros 1 1, Mat.zeros 1 1, Mat.zeros 1 1, Mat.zeros 1 1, Mat.zeros 1 1,
        Mat.zeros 1 1, Mat.zeros 1 1, Mat.zeros 1 1, Mat.zeros 1 1, Mat.zeros 1 1,
        Mat.zeros 1 1, Mat.zeros 1 1, 0, 0, 0, 1, true⟩).L.Symm ∧
    (SemiRBM.init 1 1 (fun _ _ => 0)
      ⟨Mat.zeros 1 1, Mat.zeros 1 1, Mat.zeros 1 1, Mat.zeros 1 1, Mat.zeros 1 1,
        Mat.zeros 1 1, Mat.zeros 1 1, Mat.zeros 1 1, Mat.zeros 1 1, Mat.zeros 1 1,
        Mat.zeros 1 1, Mat.zeros 1 1, 0, 0, 0, 1, true⟩).L.ZeroDiag :=
  claim_C1 _ (SemiRBM.Reachable.init 1 1 (fun _ _ => 0) _)

/-! ## Field-preservation and shape lemmas for the training pipeline -/

theorem forward_X (s : SemiRBM) (Xopt : Option Mat) (U : ℕ → ℕ → ℝ) :
    (SemiRBM.forward s Xopt U).1.X = s.X := rfl

theorem forward_pX (s : SemiRBM) (Xopt : Option Mat) (U : ℕ → ℕ → ℝ) :
    (SemiRBM.forward s Xopt U).1.pX = s.pX := rfl

theorem forward_pY (s : SemiRBM) (Xopt : Option Mat) (U : ℕ → ℕ → ℝ) :
    (SemiRBM.forward s Xopt U).1.pY = s.pY := rfl

theorem forward_persistent (s : SemiRBM) (Xopt : Option Mat) (U : ℕ → ℕ → ℝ) :
    (SemiRBM.forward s Xopt U).1.persistent = s.persistent := rfl

theorem forward_sm (s : SemiRBM) (Xopt : Option Mat) (U : ℕ → ℕ → ℝ) :
    (SemiRBM.forward s Xopt U).1.sampling_method = s.sampling_method := rfl

theorem forward_Q (s : SemiRBM) (Xopt : Option Mat) (U : ℕ → ℕ → ℝ) :
    (SemiRBM.forward s Xopt U).1.Q = SemiRBM.condQ s (Xopt.getD s.X) := rfl

theorem backward_pX (s : SemiRBM) (Yopt Xopt : Option Mat) (r : SemiRBM.BackwardRand) :
    (SemiRBM.backward s Yopt Xopt r).1.pX = s.pX := by
  rcases hsm : s.sampling_method <;> simp [SemiRBM.backward, hsm]

theorem backward_pY (s : SemiRBM) (Yopt Xopt : Option Mat) (r : SemiRBM.BackwardRand) :
    (SemiRBM.backward s Yopt Xopt r).1.pY = s.pY := by
  rcases hsm : s.sampling_method <;> simp [SemiRBM.backward, hsm]

theorem backward_Y (s : SemiRBM) (Yopt Xopt : Option Mat) (r : SemiRBM.BackwardRand) :
    (SemiRBM.backward s Yopt Xopt r).1.Y = s.Y := by
  rcases hsm : s.sampling_method <;> simp [SemiRBM.backward, hsm]

theorem backward_persistent (s : SemiRBM) (Yopt Xopt : Option Mat) (r : SemiRBM.BackwardRand) :
    (SemiRBM.backward s Yopt Xopt r).1.persistent = s.persistent := by
  rcases hsm : s.sampling_method <;> simp [SemiRBM.backward, hsm]

theorem backward_sm (s : SemiRBM) (Yopt Xopt : Option Mat) (r : SemiRBM.BackwardRand) :
    (SemiRBM.backward s Yopt Xopt r).1.sampling_method = s.sampling_method := by
  rcases hsm : s.sampling_method <;> simp [SemiRBM.backward, hsm]

theorem negStep_pX (s : SemiRBM) (r : SemiRBM.NegRand) :
    (SemiRBM.negStep s r).pX = s.pX := by
  unfold SemiRBM.negStep
  rw [forward_pX, backward_pX]

theorem negStep_pY (s : SemiRBM) (r : SemiRBM.NegRand) :
    (SemiRBM.negStep s r).pY = s.pY := by
  unfold SemiRBM.negStep
  rw [forward_pY, backward_pY]

theorem negStep_persistent (s : SemiRBM) (r : SemiRBM.NegRand) :
    (SemiRBM.negStep s r).persistent = s.persistent := by
  unfold SemiRBM.negStep
  rw [forward_persistent, backward_persistent]

theorem negStep_sm (s : SemiRBM) (r : SemiRBM.NegRand) :
    (SemiRBM.negStep s r).sampling_method = s.sampling_method := by
  unfold SemiRBM.negStep
  rw [forward_sm, backward_sm]

theorem negPhase_persistent (o : ℕ → SemiRBM.NegRand) (n : ℕ) (s : SemiRBM) :
    (SemiRBM.negPhase o n s).persistent = s.persistent := by
  induction n with
  | zero => rfl
  | succ n ih => rw [SemiRBM.negPhase, negStep_persistent, ih]

theorem negPhase_sm (o : ℕ → SemiRBM.NegRand) (n : ℕ) (s : SemiRBM) :
    (SemiRBM.negPhase o n s).sampling_method = s.sampling_method := by
  induction n with
  | zero => rfl
  | succ n ih => rw [SemiRBM.negPhase, negStep_sm, ih]

theorem persistentLoad_persistent (s : SemiRBM) (X : Mat) :
    (SemiRBM.persistentLoad s X).persistent = s.persistent := by
  unfold SemiRBM.persistentLoad
  by_cases hp : s.persistent
  · by_cases hc : X.cols ≠ s.pX.cols <;> simp [hp, hc]
  · simp [hp]

theorem persistentLoad_sm (s : SemiRBM) (X : Mat) :
    (SemiRBM.persistentLoad s X).sampling_method = s.sampling_method := by
  unfold SemiRBM.persistentLoad
  by_cases hp : s.persistent
  · by_cases hc : X.cols ≠ s.pX.cols <;> simp [hp, hc]
  · simp [hp]

theorem paramUpdate_pX (s : SemiRBM) (X Q : Mat) :
    (SemiRBM.paramUpdate s X Q).pX = s.pX := rfl

theorem paramUpdate_pY (s : SemiRBM) (X Q : Mat) :
    (SemiRBM.paramUpdate s X Q).pY = s.pY := rfl

theorem paramUpdate_persistent (s : SemiRBM) (X Q : Mat) :
    (SemiRBM.paramUpdate s X Q).persistent = s.persistent := rfl

/-- A fold whose step preserves the column count preserves the column
count. -/
theorem foldl_cols_pres {β : Type} (f : Mat → β → Mat) (hf : ∀ P k, (f P k).cols = P.cols)
    (l : List β) (P0 : Mat) : (l.foldl f P0).cols = P0.cols := by
  induction l generalizing P0 with
  | nil => rfl
  | cons a l ih => rw [List.foldl_cons, ih, hf]

/-- In mean-field mode, `backward` on cached state produces a visible sample
with one column per column of the cached hidden state. -/
theorem backward_none_X_cols (s : SemiRBM) (r : SemiRBM.BackwardRand)
    (hsm : s.sampling_method = SamplingMethod.MF) :
    (SemiRBM.backward s none none r).1.X.cols = s.Y.cols := by
  simp only [SemiRBM.backward, hsm]
  show ((List.range s.num_lateral_updates).foldl
      (fun P _ => SemiRBM.mfStep s (SemiRBM.dynamicBias s (SemiRBM.backwardY s none)) P)
      (SemiRBM.mfInitP s (SemiRBM.backwardY s none) (SemiRBM.backwardX s none none))).cols
    = s.Y.cols
  exact foldl_cols_pres
    (fun P _ => SemiRBM.mfStep s (SemiRBM.dynamicBias s (SemiRBM.backwardY s none)) P)
    (fun P k => rfl) (List.range s.num_lateral_updates)
    (SemiRBM.mfInitP s (SemiRBM.backwardY s none) (SemiRBM.backwardX s none none))

/-- One negative-phase step in mean-field mode keeps the chain's column
count. -/
theorem negStep_chain_cols (s : SemiRBM) (r : SemiRBM.NegRand) (m : ℕ)
    (hsm : s.sampling_method = SamplingMethod.MF) (hY : s.Y.cols = m) :
    (SemiRBM.negStep s r).X.cols = m ∧ (SemiRBM.negStep s r).Y.cols = m := by
  have hX1 : (SemiRBM.backward s none none r.bw).1.X.cols = m := by
    rw [backward_none_X_cols s r.bw hsm, hY]
  constructor
  · rw [SemiRBM.negStep, forward_X]
    exact hX1
  · show ((SemiRBM.backward s none none r.bw).1.X).cols = m
    exact hX1

/-- The negative phase in mean-field mode keeps the chain's column count. -/
theorem negPhase_chain_cols (o : ℕ → SemiRBM.NegRand) (n : ℕ) (s : SemiRBM) (m : ℕ)
    (hsm : s.sampling_method = SamplingMethod.MF) (hX : s.X.cols = m) (hY : s.Y.cols = m) :
    (SemiRBM.negPhase o n s).X.cols = m ∧ (SemiRBM.negPhase o n s).Y.cols = m := by
  induction n with
  | zero => exact ⟨hX, hY⟩
  | succ n ih =>
    have hsm' : (SemiRBM.negPhase o n s).sampling_method = SamplingMethod.MF := by
      rw [negPhase_sm, hsm]
    exact negStep_chain_cols _ _ m hsm' ih.2

/-! ## C3: persistent-chain behavior of `train` -/

/-- When the batch column count matches the cached chains', the
persistent-chain bookkeeping loads the stored chains unchanged. -/
theorem persistentLoad_keep (t : SemiRBM) (X : Mat) (hp : t.persistent = true)
    (hc : X.cols = t.pX.cols) :
    (SemiRBM.persistentLoad t X).X = t.pX ∧ (SemiRBM.persistentLoad t X).Y = t.pY ∧
    (SemiRBM.persistentLoad t X).pX = t.pX ∧ (SemiRBM.persistentLoad t X).pY = t.pY := by
  unfold SemiRBM.persistentLoad
  have hc' : ¬ X.cols ≠ t.pX.cols := fun h => h hc
  simp [hp, hc']

/-- When the batch column count differs from the cached chains', the
persistent-chain bookkeeping resets both chains — and the loaded state — to
zero matrices of the batch shape. -/
theorem persistentLoad_reset (t : SemiRBM) (X : Mat) (hp : t.persistent = true)
    (hc : X.cols ≠ t.pX.cols) :
    (SemiRBM.persistentLoad t X).pX = Mat.zeros X.rows X.cols ∧
    (SemiRBM.persistentLoad t X).pY = Mat.zeros t.Q.rows t.Q.cols ∧
    (SemiRBM.persistentLoad t X).X = Mat.zeros X.rows X.cols ∧
    (SemiRBM.persistentLoad t X).Y = Mat.zeros t.Q.rows t.Q.cols := by
  unfold SemiRBM.persistentLoad
  simp [hp, hc]
  exact ⟨rfl, rfl, rfl, rfl⟩

/-- The column counts of the state loaded by the persistent-chain
bookkeeping match the batch. -/
theorem persistentLoad_chain_cols (t : SemiRBM) (X : Mat) (hp : t.persistent = true)
    (hpc : t.pY.cols = t.pX.cols) (hQ : t.Q.cols = X.cols) :
    (SemiRBM.persistentLoad t X).X.cols = X.cols ∧
    (SemiRBM.persistentLoad t X).Y.cols = X.cols := by
  by_cases hc : X.cols = t.pX.cols
  · obtain ⟨h1, h2, _, _⟩ := persistentLoad_keep t X hp hc
    constructor
    · rw [h1]; exact hc.symm
    · rw [h2, hpc]; exact hc.symm
  · obtain ⟨_, _, h3, h4⟩ := persistentLoad_reset t X hp hc
    rw [h3, h4]
    exact ⟨rfl, hQ⟩

/-- Claim C3 (for the mean-field training branch, which owns the
persistent-chain logic): a persistent `train` call stores the final negative
phase chain state into `pX`, `pY`; the stored chains have the batch's column
count; a call whose batch column count matches the cached chains continues
from them without resetting; a call whose batch column count differs resets
the chains to zero-filled matrices of the batch shape before the negative
phase; consequently a second call on a batch with the same column count
continues from the chain state the first call stored. -/
theorem claim_C3 (s : SemiRBM) (X1 : Mat) (U1 : ℕ → ℕ → ℝ) (o1 : ℕ → SemiRBM.NegRand)
    (base1 : SemiRBM.AbstractBMTrainResult)
    (hsm : s.sampling_method = SamplingMethod.MF)
    (hp : s.persistent = true)
    (hpc : s.pY.cols = s.pX.cols) :
    ((SemiRBM.train s X1 U1 o1 base1).pX =
        (SemiRBM.negPhase o1 s.cd_steps
          (SemiRBM.persistentLoad (SemiRBM.forward s (some X1) U1).1 X1)).X ∧
      (SemiRBM.train s X1 U1 o1 base1).pY =
        (SemiRBM.negPhase o1 s.cd_steps
          (SemiRBM.persistentLoad (SemiRBM.forward s (some X1) U1).1 X1)).Y) ∧
    ((SemiRBM.train s X1 U1 o1 base1).pX.cols = X1.cols ∧
      (SemiRBM.train s X1 U1 o1 base1).pY.cols = X1.cols) ∧
    (∀ t : SemiRBM, ∀ X : Mat, ∀ U : ℕ → ℕ → ℝ, t.persistent = true → X.cols = t.pX.cols →
      (SemiRBM.persistentLoad (SemiRBM.forward t (some X) U).1 X).X = t.pX ∧
      (SemiRBM.persistentLoad (SemiRBM.forward t (some X) U).1 X).Y = t.pY ∧
      (SemiRBM.persistentLoad (SemiRBM.forward t (some X) U).1 X).pX = t.pX ∧
      (SemiRBM.persistentLoad (SemiRBM.forward t (some X) U).1 X).pY = t.pY) ∧
    (∀ t : SemiRBM, ∀ X : Mat, ∀ U : ℕ → ℕ → ℝ, t.persistent = true → X.cols ≠ t.pX.cols →
      (SemiRBM.persistentLoad (SemiRBM.forward t (some X) U).1 X).pX =
        Mat.zeros X.rows X.cols ∧
      (SemiRBM.persistentLoad (SemiRBM.forward t (some X) U).1 X).pY =
        Mat.zeros t.W.cols X.cols ∧
      (SemiRBM.persistentLoad (SemiRBM.forward t (some X) U).1 X).X =
        Mat.zeros X.rows X.cols ∧
      (SemiRBM.persistentLoad (SemiRBM.forward t (some X) U).1 X).Y =
        Mat.zeros t.W.cols X.cols) ∧
    (∀ X2 : Mat, ∀ U2 : ℕ → ℕ → ℝ, X2.cols = X1.cols →
      (SemiRBM.persistentLoad
          (SemiRBM.forward (SemiRBM.train s X1 U1 o1 base1) (some X2) U2).1 X2).X =
        (SemiRBM.train s X1 U1 o1 base1).pX ∧
      (SemiRBM.persistentLoad
          (SemiRBM.forward (SemiRBM.train s X1 U1 o1 base1) (some X2) U2).1 X2).Y =
        (SemiRBM.train s X1 U1 o1 base1).pY) := by
  -- the loaded state after the positive phase of the first call
  have hQcols : ((SemiRBM.forward s (some X1) U1).1).Q.cols = X1.cols := rfl
  have hploadcols :
      (SemiRBM.persistentLoad (SemiRBM.forward s (some X1) U1).1 X1).X.cols = X1.cols ∧
      (SemiRBM.persistentLoad (SemiRBM.forward s (some X1) U1).1 X1).Y.cols = X1.cols :=
    persistentLoad_chain_cols _ X1 hp hpc hQcols
  have hsmload :
      (SemiRBM.persistentLoad (SemiRBM.forward s (some X1) U1).1 X1).sampling_method =
        SamplingMethod.MF := by
    rw [persistentLoad_sm, forward_sm, hsm]
  have hchaincols :=
    negPhase_chain_cols o1 s.cd_steps _ X1.cols hsmload hploadcols.1 hploadcols.2
  have hpers3 : (SemiRBM.negPhase o1 s.cd_steps
      (SemiRBM.persistentLoad (SemiRBM.forward s (some X1) U1).1 X1)).persistent = true := by
    rw [negPhase_persistent, persistentLoad_persistent, forward_persistent, hp]
  have hstore : (SemiRBM.train s X1 U1 o1 base1).pX =
      (SemiRBM.negPhase o1 s.cd_steps
        (SemiRBM.persistentLoad (SemiRBM.forward s (some X1) U1).1 X1)).X ∧
      (SemiRBM.train s X1 U1 o1 base1).pY =
      (SemiRBM.negPhase o1 s.cd_steps
        (SemiRBM.persistentLoad (SemiRBM.forward s (some X1) U1).1 X1)).Y := by
    simp only [SemiRBM.train, hsm]
    rw [paramUpdate_pX, paramUpdate_pY]
    unfold SemiRBM.storeChains
    simp [hpers3]
  have hkeep : ∀ t : SemiRBM, ∀ X : Mat, ∀ U : ℕ → ℕ → ℝ,
      t.persistent = true → X.cols = t.pX.cols →
      (SemiRBM.persistentLoad (SemiRBM.forward t (some X) U).1 X).X = t.pX ∧
      (SemiRBM.persistentLoad (SemiRBM.forward t (some X) U).1 X).Y = t.pY ∧
      (SemiRBM.persistentLoad (SemiRBM.forward t (some X) U).1 X).pX = t.pX ∧
      (SemiRBM.persistentLoad (SemiRBM.forward t (some X) U).1 X).pY = t.pY := by
    intro t X U hpt hct
    exact persistentLoad_keep (SemiRBM.forward t (some X) U).1 X hpt hct
  refine ⟨hstore, ⟨?_, ?_⟩, hkeep, ?_, ?_⟩
  · rw [hstore.1]; exact hchaincols.1
  · rw [hstore.2]; exact hchaincols.2
  · intro t X U hpt hct
    exact persistentLoad_reset (SemiRBM.forward t (some X) U).1 X hpt hct
  · intro X2 U2 hc2
    have hpt : (SemiRBM.train s X1 U1 o1 base1).persistent = true := by
      simp only [SemiRBM.train, hsm]
      rw [paramUpdate_persistent]
      unfold SemiRBM.storeChains
      simp [hpers3]
    have hct : X2.cols = (SemiRBM.train s X1 U1 o1 base1).pX.cols := by
      rw [hc2]
      exact (by rw [hstore.1]; exact hchaincols.1.symm)
    obtain ⟨h1, h2, _, _⟩ := hkeep (SemiRBM.train s X1 U1 o1 base1) X2 U2 hpt hct
    exact ⟨h1, h2⟩

/-- Witness for C3 at a concrete persistent mean-field state. -/
theorem claim_C3_witness :
    trivState.sampling_method = SamplingMethod.MF ∧ trivState.persistent = true ∧
    trivState.pY.cols = trivState.pX.cols ∧
    ((SemiRBM.train trivState (Mat.zeros 1 1) zeroDraw (fun _ => trivNegRand)
        ⟨Mat.zeros 1 1, Mat.zeros 1 1, Mat.zeros 1 1, Mat.zeros 1 1, Mat.zeros 1 1,
          Mat.zeros 1 1, Mat.zeros 1 1, Mat.zeros 1 1, Mat.zeros 1 1, Mat.zeros 1 1,
          Mat.zeros 1 1, Mat.zeros 1 1⟩).pX =
      (SemiRBM.negPhase (fun _ => trivNegRand) trivState.cd_steps
        (SemiRBM.persistentLoad
          (SemiRBM.forward trivState (some (Mat.zeros 1 1)) zeroDraw).1 (Mat.zeros 1 1))).X) := by
  have h := claim_C3 trivState (Mat.zeros 1 1) zeroDraw (fun _ => trivNegRand)
    ⟨Mat.zeros 1 1, Mat.zeros 1 1, Mat.zeros 1 1, Mat.zeros 1 1, Mat.zeros 1 1,
      Mat.zeros 1 1, Mat.zeros 1 1, Mat.zeros 1 1, Mat.zeros 1 1, Mat.zeros 1 1,
      Mat.zeros 1 1, Mat.zeros 1 1⟩ rfl rfl rfl
  exact ⟨rfl, rfl, rfl, h.1.1⟩

/-! ## C10: independence of the update from the persistent visible chain's entries -/

/-- Replacing the persistent visible chain commutes with a negative-phase
step: neither `backward` nor `forward` reads or writes `pX`. -/
theorem negStep_set_pX (u : SemiRBM) (p : Mat) (r : SemiRBM.NegRand) :
    SemiRBM.negStep {u with pX := p} r = {SemiRBM.negStep u r with pX := p} := by
  rcases hsm : u.sampling_method <;>
    simp [SemiRBM.negStep, SemiRBM.backward, SemiRBM.forward, hsm, SemiRBM.mfStep,
      SemiRBM.dynamicBias, SemiRBM.mfInitP, SemiRBM.backwardY, SemiRBM.backwardX,
      SemiRBM.condQ, SemiRBM.gibbsRowUpdate, Mat.bernoulli]

/-- In mean-field mode a negative-phase step reads the cached visible state
only through its row count: `backward` replaces it by a zero matrix of that
row count before anything else uses it. -/
theorem negStep_set_X (u : SemiRBM) (x x' : Mat) (r : SemiRBM.NegRand)
    (hsm : u.sampling_method = SamplingMethod.MF) (hr : x.rows = x'.rows) :
    SemiRBM.negStep {u with X := x} r = SemiRBM.negStep {u with X := x'} r := by
  simp only [SemiRBM.negStep, SemiRBM.backward, SemiRBM.forward, SemiRBM.backwardX,
    SemiRBM.backwardY, SemiRBM.mfStep, SemiRBM.dynamicBias, SemiRBM.mfInitP,
    SemiRBM.condQ, Mat.bernoulli, hsm]
  rw [hr]

/-- In mean-field mode, once the chain has been loaded, the negative phase
of length at least one depends on the loaded visible entries only through
their row count, and the replaced persistent chain rides along unread. -/
theorem negPhase_set_pX_after_X (o : ℕ → SemiRBM.NegRand) (ub : SemiRBM) (p x : Mat)
    (k : ℕ) (hsm : ub.sampling_method = SamplingMethod.MF) (hr : p.rows = x.rows) :
    SemiRBM.negPhase o (k + 1) {ub with pX := p, X := p} =
      {SemiRBM.negPhase o (k + 1) {ub with X := x} with pX := p} := by
  induction k with
  | zero =>
    show SemiRBM.negStep {ub with pX := p, X := p} (o 0) =
      {SemiRBM.negStep {ub with X := x} (o 0) with pX := p}
    have h1 : SemiRBM.negStep {ub with pX := p, X := p} (o 0) =
        {SemiRBM.negStep {ub with X := p} (o 0) with pX := p} :=
      negStep_set_pX {ub with X := p} p (o 0)
    rw [h1, negStep_set_X ub p x (o 0) hsm hr]
  | succ k ih =>
    show SemiRBM.negStep (SemiRBM.negPhase o (k + 1) {ub with pX := p, X := p}) (o (k + 1)) =
      {SemiRBM.negStep (SemiRBM.negPhase o (k + 1) {ub with X := x}) (o (k + 1)) with pX := p}
    rw [ih, negStep_set_pX]

/-- Running `forward` commutes with replacing the persistent visible chain. -/
theorem forward_set_pX (s : SemiRBM) (p : Mat) (Xopt : Option Mat) (U : ℕ → ℕ → ℝ) :
    (SemiRBM.forward {s with pX := p} Xopt U).1 = {(SemiRBM.forward s Xopt U).1 with pX := p} :=
  rfl

/-- Claim C10: in mean-field mode with persistent CD and at least one CD
step, `train` is independent of the entries of the incoming persistent
visible chain `pX` — only its shape matters.  Two calls on the same batch
with the same draws and the same `pY` but different equal-shaped `pX`
produce identical parameter updates and identical stored chains (identical
resulting states), because the first `backward` call of the negative phase
reinitializes the visible state to a zero matrix. -/
theorem claim_C10 (s : SemiRBM) (p2 X : Mat) (U0 : ℕ → ℕ → ℝ) (o : ℕ → SemiRBM.NegRand)
    (base : SemiRBM.AbstractBMTrainResult)
    (hsm : s.sampling_method = SamplingMethod.MF)
    (hp : s.persistent = true)
    (hcd : 1 ≤ s.cd_steps)
    (hrows : p2.rows = s.pX.rows)
    (hcols : p2.cols = s.pX.cols) :
    SemiRBM.train {s with pX := p2} X U0 o base = SemiRBM.train s X U0 o base := by
  obtain ⟨k, hk⟩ : ∃ k, s.cd_steps = k + 1 := ⟨s.cd_steps - 1, by omega⟩
  obtain ⟨nv, nh, W0, b0, c0, dW0, db0, dc0, XX0, YY0, PP0, QQ0, pX0, pY0, lr0, mom0,
    wd0, cd0, pers0, sm0, lrl0, moml0, wdl0, damp0, nlu0, L0, dL0, ais0⟩ := s
  obtain rfl : sm0 = SamplingMethod.MF := hsm
  obtain rfl : pers0 = true := hp
  obtain rfl : cd0 = k + 1 := hk
  have hrows' : p2.rows = pX0.rows := hrows
  have hcols' : p2.cols = pX0.cols := hcols
  simp only [SemiRBM.train]
  have hF2 : (SemiRBM.forward
      ⟨nv, nh, W0, b0, c0, dW0, db0, dc0, XX0, YY0, PP0, QQ0, p2, pY0, lr0, mom0,
        wd0, k + 1, true, SamplingMethod.MF, lrl0, moml0, wdl0, damp0, nlu0, L0, dL0, ais0⟩
      (some X) U0).1 =
      {(SemiRBM.forward
        ⟨nv, nh, W0, b0, c0, dW0, db0, dc0, XX0, YY0, PP0, QQ0, pX0, pY0, lr0, mom0,
          wd0, k + 1, true, SamplingMethod.MF, lrl0, moml0, wdl0, damp0, nlu0, L0, dL0, ais0⟩
        (some X) U0).1 with pX := p2} := rfl
  rw [hF2]
  generalize hGF : (SemiRBM.forward
      ⟨nv, nh, W0, b0, c0, dW0, db0, dc0, XX0, YY0, PP0, QQ0, pX0, pY0, lr0, mom0,
        wd0, k + 1, true, SamplingMethod.MF, lrl0, moml0, wdl0, damp0, nlu0, L0, dL0, ais0⟩
      (some X) U0).1 = F
  have hFpers : F.persistent = true := by rw [← hGF]; rfl
  have hFpX : F.pX = pX0 := by rw [← hGF]; rfl
  have hFpY : F.pY = pY0 := by rw [← hGF]; rfl
  have hFsm : F.sampling_method = SamplingMethod.MF := by rw [← hGF]; rfl
  by_cases hg : X.cols ≠ pX0.cols
  · -- the guard fires on both sides: the chains are reset and the replaced
    -- pX is overwritten before anything reads it
    have hg2 : X.cols ≠ p2.cols := by rw [hcols']; exact hg
    have hL2 : SemiRBM.persistentLoad {F with pX := p2} X = SemiRBM.persistentLoad F X := by
      unfold SemiRBM.persistentLoad
      simp [hFpers, hFpX, hg, hg2]
    rw [hL2]
  · -- the guard does not fire: the chains are loaded as the current state,
    -- and the first backward call discards the visible entries
    push_neg at hg
    have hgn : ¬ X.cols ≠ pX0.cols := by simp [hg]
    have hg2 : ¬ X.cols ≠ p2.cols := by rw [hcols']; simp [hg]
    have hL2 : SemiRBM.persistentLoad {F with pX := p2} X =
        {{F with Y := pY0} with pX := p2, X := p2} := by
      unfold SemiRBM.persistentLoad
      simp [hFpers, hFpX, hFpY, hg2]
    have hL1 : SemiRBM.persistentLoad F X = {{F with Y := pY0} with X := pX0} := by
      unfold SemiRBM.persistentLoad
      simp [hFpers, hFpX, hFpY, hgn]
    rw [hL2, hL1]
    have hsmub : ({F with Y := pY0} : SemiRBM).sampling_method = SamplingMethod.MF := hFsm
    rw [negPhase_set_pX_after_X o {F with Y := pY0} p2 pX0 k hsmub hrows']
    have hNPp : (SemiRBM.negPhase o (k + 1) {{F with Y := pY0} with X := pX0}).persistent
        = true := by
      rw [negPhase_persistent]
      exact hFpers
    unfold SemiRBM.storeChains
    simp [hNPp]

/-- Witness for C10: at a concrete persistent mean-field state, replacing
the persistent visible chain by an all-ones matrix of the same shape leaves
the `train` result unchanged. -/
theorem claim_C10_witness :
    trivState.sampling_method = SamplingMethod.MF ∧ trivState.persistent = true ∧
    1 ≤ trivState.cd_steps ∧
    (⟨1, 1, fun _ _ => 1⟩ : Mat).rows = trivState.pX.rows ∧
    (⟨1, 1, fun _ _ => 1⟩ : Mat).cols = trivState.pX.cols ∧
    SemiRBM.train {trivState with pX := ⟨1, 1, fun _ _ => 1⟩} (Mat.zeros 1 1) zeroDraw
        (fun _ => trivNegRand)
        ⟨Mat.zeros 1 1, Mat.zeros 1 1, Mat.zeros 1 1, Mat.zeros 1 1, Mat.zeros 1 1,
          Mat.zeros 1 1, Mat.zeros 1 1, Mat.zeros 1 1, Mat.zeros 1 1, Mat.zeros 1 1,
          Mat.zeros 1 1, Mat.zeros 1 1⟩ =
      SemiRBM.train trivState (Mat.zeros 1 1) zeroDraw (fun _ => trivNegRand)
        ⟨Mat.zeros 1 1, Mat.zeros 1 1, Mat.zeros 1 1, Mat.zeros 1 1, Mat.zeros 1 1,
          Mat.zeros 1 1, Mat.zeros 1 1, Mat.zeros 1 1, Mat.zeros 1 1, Mat.zeros 1 1,
          Mat.zeros 1 1, Mat.zeros 1 1⟩ :=
  ⟨rfl, rfl, le_refl 1, rfl, rfl,
    claim_C10 trivState ⟨1, 1, fun _ _ => 1⟩ (Mat.zeros 1 1) zeroDraw (fun _ => trivNegRand)
      _ rfl rfl (le_refl 1) rfl rfl⟩

/-! ## C8: the branchless Bernoulli log-likelihood identity -/

/-- The per-entry identity behind the per-pair branch of
`_clogprob_hid_vis`: for binary `y`,
`log(2·q·y - y - (q-1)) = y·log q + (1-y)·log(1-q)`. -/
theorem log_bernoulli_identity (q y : ℝ) (hy : y = 0 ∨ y = 1) :
    Real.log (2 * (q * y) - y - (q - 1)) = y * Real.log q + (1 - y) * Real.log (1 - q) := by
  rcases hy with rfl | rfl
  · have h : 2 * (q * 0) - 0 - (q - 1) = 1 - q := by ring
    rw [h]
    ring
  · have h : 2 * (q * 1) - 1 - (q - 1) = q := by ring
    rw [h]
    ring

/-- Claim C8: for probabilities strictly between 0 and 1 and binary `y` the
branchless expression `log(2·Q∘Y - Y - (Q-1))` equals the Bernoulli
log-likelihood `Y·log Q + (1-Y)·log(1-Q)` entrywise, and consequently the
per-pair (non-all-pairs) branch of `_clogprob_hid_vis` computes in each
column the sum over hidden units of the Bernoulli log-likelihoods of `Y`
under the conditional probability `Q`. -/
theorem claim_C8 (s : SemiRBM) (X Y : Mat)
    (hY : ∀ i j, Y.entry i j = 0 ∨ Y.entry i j = 1) :
    (∀ q y : ℝ, 0 < q → q < 1 → (y = 0 ∨ y = 1) →
      Real.log (2 * (q * y) - y - (q - 1)) =
        y * Real.log q + (1 - y) * Real.log (1 - q)) ∧
    (∀ j, (SemiRBM.clogprob_hid_vis s X Y false).entry 0 j =
      ∑ i ∈ Finset.range (SemiRBM.condQ s X).rows,
        (Y.entry i j * Real.log ((SemiRBM.condQ s X).entry i j) +
          (1 - Y.entry i j) * Real.log (1 - (SemiRBM.condQ s X).entry i j))) := by
  refine ⟨fun q y _ _ hy => log_bernoulli_identity q y hy, fun j => ?_⟩
  show (∑ i ∈ Finset.range (SemiRBM.condQ s X).rows,
      Real.log (2 * ((SemiRBM.condQ s X).entry i j * Y.entry i j) - Y.entry i j -
        ((SemiRBM.condQ s X).entry i j - 1))) = _
  exact Finset.sum_congr rfl fun i _ =>
    log_bernoulli_identity ((SemiRBM.condQ s X).entry i j) (Y.entry i j) (hY i j)

/-- Witness for C8 at a concrete state with an all-zero hidden matrix. -/
theorem claim_C8_witness :
    (∀ i j, (Mat.zeros 1 1).entry i j = 0 ∨ (Mat.zeros 1 1).entry i j = 1) ∧
    ((∀ q y : ℝ, 0 < q → q < 1 → (y = 0 ∨ y = 1) →
      Real.log (2 * (q * y) - y - (q - 1)) =
        y * Real.log q + (1 - y) * Real.log (1 - q)) ∧
    (∀ j, (SemiRBM.clogprob_hid_vis trivState (Mat.zeros 1 1) (Mat.zeros 1 1) false).entry 0 j =
      ∑ i ∈ Finset.range (SemiRBM.condQ trivState (Mat.zeros 1 1)).rows,
        ((Mat.zeros 1 1).entry i j *
            Real.log ((SemiRBM.condQ trivState (Mat.zeros 1 1)).entry i j) +
          (1 - (Mat.zeros 1 1).entry i j) *
            Real.log (1 - (SemiRBM.condQ trivState (Mat.zeros 1 1)).entry i j)))) :=
  ⟨fun _ _ => Or.inl rfl,
    claim_C8 trivState (Mat.zeros 1 1) (Mat.zeros 1 1) (fun _ _ => Or.inl rfl)⟩

/-! ## C9: bounds on the conditional entropy -/

theorem inv_one_add_exp_pos (z : ℝ) : 0 < 1 / (1 + Real.exp z) := by positivity

theorem inv_one_add_exp_lt_one (z : ℝ) : 1 / (1 + Real.exp z) < 1 := by
  rw [div_lt_one (by positivity)]
  linarith [Real.exp_pos z]

theorem binary_entropy_nonneg (q : ℝ) (h0 : 0 < q) (h1 : q < 1) :
    0 ≤ -(q * Real.log q + (1 - q) * Real.log (1 - q)) := by
  have l1 : Real.log q ≤ 0 := Real.log_nonpos h0.le h1.le
  have l2 : Real.log (1 - q) ≤ 0 := Real.log_nonpos (by linarith) (by linarith)
  nlinarith

theorem binary_entropy_le_log_two (q : ℝ) (h0 : 0 < q) (h1 : q < 1) :
    -(q * Real.log q + (1 - q) * Real.log (1 - q)) ≤ Real.log 2 := by
  have h1' : 0 < 1 - q := by linarith
  have k1 : Real.log (1 / (2 * q)) ≤ 1 / (2 * q) - 1 :=
    Real.log_le_sub_one_of_pos (by positivity)
  have k2 : Real.log (1 / (2 * (1 - q))) ≤ 1 / (2 * (1 - q)) - 1 :=
    Real.log_le_sub_one_of_pos (by positivity)
  have e1 : Real.log (1 / (2 * q)) = -(Real.log 2 + Real.log q) := by
    rw [one_div, Real.log_inv, Real.log_mul (by norm_num) (ne_of_gt h0)]
  have e2 : Real.log (1 / (2 * (1 - q))) = -(Real.log 2 + Real.log (1 - q)) := by
    rw [one_div, Real.log_inv, Real.log_mul (by norm_num) (ne_of_gt h1')]
  rw [e1] at k1
  rw [e2] at k2
  have m1 : q * (-(Real.log 2 + Real.log q)) ≤ q * (1 / (2 * q) - 1) :=
    mul_le_mul_of_nonneg_left k1 h0.le
  have m2 : (1 - q) * (-(Real.log 2 + Real.log (1 - q))) ≤
      (1 - q) * (1 / (2 * (1 - q)) - 1) :=
    mul_le_mul_of_nonneg_left k2 h1'.le
  have r1 : q * (1 / (2 * q) - 1) = 1 / 2 - q := by
    field_simp
    ring
  have r2 : (1 - q) * (1 / (2 * (1 - q)) - 1) = 1 / 2 - (1 - q) := by
    field_simp
    ring
  rw [r1] at m1
  rw [r2] at m2
  nlinarith

/-- Claim C9: every entry of the row matrix returned by `_centropy_hid_vis`
is at least `0` and at most `num_hiddens · log 2` (assuming the inherited
weight matrix has one column per hidden unit, as the base initializer
guarantees). -/
theorem claim_C9 (s : SemiRBM) (X : Mat) (U : ℕ → ℕ → ℝ)
    (hW : s.W.cols = s.num_hiddens) :
    ∀ j, 0 ≤ (SemiRBM.centropy_hid_vis s X U).2.entry 0 j ∧
      (SemiRBM.centropy_hid_vis s X U).2.entry 0 j ≤ s.num_hiddens * Real.log 2 := by
  intro j
  have hq : ∀ i, 0 < (SemiRBM.condQ s X).entry i j ∧ (SemiRBM.condQ s X).entry i j < 1 := by
    intro i
    constructor
    · show 0 < 1 / (1 + Real.exp (-(s.W.transpose.mul X).entry i j - s.c.entry i 0))
      exact inv_one_add_exp_pos _
    · show 1 / (1 + Real.exp (-(s.W.transpose.mul X).entry i j - s.c.entry i 0)) < 1
      exact inv_one_add_exp_lt_one _
  have hE : (SemiRBM.centropy_hid_vis s X U).2.entry 0 j =
      ∑ i ∈ Finset.range s.W.cols,
        -((SemiRBM.condQ s X).entry i j * Real.log ((SemiRBM.condQ s X).entry i j) +
          (1 - (SemiRBM.condQ s X).entry i j) *
            Real.log (1 - (SemiRBM.condQ s X).entry i j)) := by
    show -(∑ i ∈ Finset.range s.W.cols,
        ((SemiRBM.condQ s X).entry i j * Real.log ((SemiRBM.condQ s X).entry i j) +
          (1 - (SemiRBM.condQ s X).entry i j) *
            Real.log (1 - (SemiRBM.condQ s X).entry i j))) = _
    rw [← Finset.sum_neg_distrib]
  rw [hE]
  constructor
  · exact Finset.sum_nonneg fun i _ => binary_entropy_nonneg _ (hq i).1 (hq i).2
  · calc (∑ i ∈ Finset.range s.W.cols,
        -((SemiRBM.condQ s X).entry i j * Real.log ((SemiRBM.condQ s X).entry i j) +
          (1 - (SemiRBM.condQ s X).entry i j) *
            Real.log (1 - (SemiRBM.condQ s X).entry i j)))
        ≤ (Finset.range s.W.cols).card • Real.log 2 :=
          Finset.sum_le_card_nsmul _ _ _
            (fun i _ => binary_entropy_le_log_two _ (hq i).1 (hq i).2)
      _ = s.num_hiddens * Real.log 2 := by
          rw [Finset.card_range, nsmul_eq_mul, hW]

/-- Witness for C9 at a concrete state. -/
theorem claim_C9_witness :
    trivState.W.cols = trivState.num_hiddens ∧
    (0 ≤ (SemiRBM.centropy_hid_vis trivState (Mat.zeros 1 1) zeroDraw).2.entry 0 0 ∧
      (SemiRBM.centropy_hid_vis trivState (Mat.zeros 1 1) zeroDraw).2.entry 0 0 ≤
        trivState.num_hiddens * Real.log 2) :=
  ⟨rfl, claim_C9 trivState (Mat.zeros 1 1) zeroDraw rfl 0⟩

/-! ## C7: the batched AIS estimator -/

theorem maxSamples_nonneg (n c : ℕ) : 0 ≤ SemiRBM.maxSamples n c :=
  le_min (div_nonneg (by norm_num) (Nat.cast_nonneg n)) (Nat.cast_nonneg c)

theorem maxSamples_pos (n c : ℕ) (hn : 0 < n) (hc : 0 < c) : 0 < SemiRBM.maxSamples n c :=
  lt_min (div_pos (by norm_num) (by exact_mod_cast hn)) (by exact_mod_cast hc)

theorem numBatches_cols_zero (n : ℕ) : SemiRBM.numBatches n 0 = 0 := by
  unfold SemiRBM.numBatches SemiRBM.maxSamples
  rw [Nat.cast_zero, min_eq_right (div_nonneg (by norm_num) (Nat.cast_nonneg n))]
  simp

/-- Every batch of the loop starts strictly inside the column range. -/
theorem batch_lt_cols (n c k : ℕ) (hn : 0 < n) (hk : k < SemiRBM.numBatches n c) :
    (k : ℚ) * SemiRBM.maxSamples n c < c := by
  by_cases hc : c = 0
  · subst hc
    rw [numBatches_cols_zero] at hk
    omega
  · have hc' : 0 < c := Nat.pos_of_ne_zero hc
    have hM := maxSamples_pos n c hn hc'
    have hdiv : (k : ℚ) < (c : ℚ) / SemiRBM.maxSamples n c := by
      have := Nat.lt_ceil.mp hk
      exact this
    exact (lt_div_iff hM).mp hdiv

/-- The columns covered by the batches reach the end of `Y`. -/
theorem cols_le_batches (n c : ℕ) (hn : 0 < n) :
    (c : ℚ) ≤ (SemiRBM.numBatches n c : ℚ) * SemiRBM.maxSamples n c := by
  by_cases hc : c = 0
  · subst hc
    simp [numBatches_cols_zero]
  · have hc' : 0 < c := Nat.pos_of_ne_zero hc
    have hM := maxSamples_pos n c hn hc'
    have hdiv : (c : ℚ) / SemiRBM.maxSamples n c ≤ (SemiRBM.numBatches n c : ℚ) := Nat.le_ceil _
    exact (div_le_iff hM).mp hdiv

/-- The clamped batch boundary sequence shared by `SemiRBM.batchStart` and
`SemiRBM.batchStop`. -/
def SemiRBM.batchBound (n c k : ℕ) : ℕ := Nat.floor (min ((k : ℚ) * SemiRBM.maxSamples n c) (c : ℚ))

theorem batchStop_eq_bound (n c k : ℕ) :
    SemiRBM.batchStop n c k = SemiRBM.batchBound n c (k + 1) := by
  unfold SemiRBM.batchStop SemiRBM.batchBound
  have h : ((k : ℚ) + 1) = ((k + 1 : ℕ) : ℚ) := by push_cast; ring
  rw [h]

theorem batchStart_eq_bound (n c k : ℕ) (hn : 0 < n) (hk : k < SemiRBM.numBatches n c) :
    SemiRBM.batchStart n c k = SemiRBM.batchBound n c k := by
  unfold SemiRBM.batchStart SemiRBM.batchBound
  rw [min_eq_left (le_of_lt (batch_lt_cols n c k hn hk))]

theorem batchBound_zero (n c : ℕ) : SemiRBM.batchBound n c 0 = 0 := by
  unfold SemiRBM.batchBound
  rw [Nat.cast_zero, zero_mul, min_eq_left (Nat.cast_nonneg c)]
  exact Nat.floor_zero

theorem batchBound_last (n c : ℕ) (hn : 0 < n) :
    SemiRBM.batchBound n c (SemiRBM.numBatches n c) = c := by
  unfold SemiRBM.batchBound
  rw [min_eq_right (cols_le_batches n c hn), Nat.floor_natCast]

/-- A monotone boundary sequence starting at `0` covers every point below
its final value. -/
theorem exists_cover (A : ℕ → ℕ) (hA0 : A 0 = 0) (K j : ℕ) (hj : j < A K) :
    ∃ k, k < K ∧ A k ≤ j ∧ j < A (k + 1) := by
  induction K with
  | zero => rw [hA0] at hj; omega
  | succ K ih =>
    by_cases h : j < A K
    · obtain ⟨k, hk, h1, h2⟩ := ih h
      exact ⟨k, by omega, h1, h2⟩
    · exact ⟨K, by omega, Nat.le_of_not_lt h, hj⟩

/-- Every column of `Y` is covered by some batch. -/
theorem batch_cover (n c j : ℕ) (hn : 0 < n) (hj : j < c) :
    ∃ k, k < SemiRBM.numBatches n c ∧ SemiRBM.batchStart n c k ≤ j ∧ j < SemiRBM.batchStop n c k := by
  have hAK : SemiRBM.batchBound n c (SemiRBM.numBatches n c) = c := batchBound_last n c hn
  obtain ⟨k, hk, h1, h2⟩ := exists_cover (SemiRBM.batchBound n c) (batchBound_zero n c)
    (SemiRBM.numBatches n c) j (by rw [hAK]; exact hj)
  refine ⟨k, hk, ?_, ?_⟩
  · rw [batchStart_eq_bound n c k hn hk]
    exact h1
  · rw [batchStop_eq_bound n c k]
    exact h2

/-- The amended batch budget: a batch never holds more than
`⌊max_samples⌋ + 1` columns, so its cross table has at most
`10^7 + num_ais_samples` entries. -/
theorem batch_budget (n c k : ℕ) (hn : 0 < n) :
    (SemiRBM.batchStop n c k - SemiRBM.batchStart n c k) * n ≤ 10 ^ 7 + n := by
  have hM0 : 0 ≤ SemiRBM.maxSamples n c := maxSamples_nonneg n c
  have hnQ : (0 : ℚ) < n := by exact_mod_cast hn
  have hfn : Nat.floor (SemiRBM.maxSamples n c) * n ≤ 10 ^ 7 := by
    have h1 : (Nat.floor (SemiRBM.maxSamples n c) : ℚ) ≤ 10 ^ 7 / n :=
      le_trans (Nat.floor_le hM0) (min_le_left _ _)
    have h2 : (Nat.floor (SemiRBM.maxSamples n c) : ℚ) * n ≤ 10 ^ 7 := (le_div_iff hnQ).mp h1
    exact_mod_cast h2
  have hsize : SemiRBM.batchStop n c k - SemiRBM.batchStart n c k ≤ Nat.floor (SemiRBM.maxSamples n c) + 1 := by
    have hb : SemiRBM.batchStop n c k ≤ Nat.floor (((k : ℚ) + 1) * SemiRBM.maxSamples n c) :=
      Nat.floor_mono (min_le_left _ _)
    have hlt : ((k : ℚ) + 1) * SemiRBM.maxSamples n c <
        (Nat.floor ((k : ℚ) * SemiRBM.maxSamples n c) : ℚ) + (Nat.floor (SemiRBM.maxSamples n c) : ℚ) + 2 := by
      have u1 : (k : ℚ) * SemiRBM.maxSamples n c <
          Nat.floor ((k : ℚ) * SemiRBM.maxSamples n c) + 1 := Nat.lt_floor_add_one _
      have u2 : SemiRBM.maxSamples n c < Nat.floor (SemiRBM.maxSamples n c) + 1 := Nat.lt_floor_add_one _
      have hexp : ((k : ℚ) + 1) * SemiRBM.maxSamples n c =
          (k : ℚ) * SemiRBM.maxSamples n c + SemiRBM.maxSamples n c := by ring
      rw [hexp]
      linarith
    have hb2 : Nat.floor (((k : ℚ) + 1) * SemiRBM.maxSamples n c) <
        Nat.floor ((k : ℚ) * SemiRBM.maxSamples n c) + Nat.floor (SemiRBM.maxSamples n c) + 2 := by
      have h0 : (0 : ℚ) ≤ ((k : ℚ) + 1) * SemiRBM.maxSamples n c :=
        mul_nonneg (by positivity) hM0
      rw [Nat.floor_lt h0]
      push_cast
      linarith
    have hstart : SemiRBM.batchStart n c k = Nat.floor ((k : ℚ) * SemiRBM.maxSamples n c) := rfl
    omega
  calc (SemiRBM.batchStop n c k - SemiRBM.batchStart n c k) * n
      ≤ (Nat.floor (SemiRBM.maxSamples n c) + 1) * n := Nat.mul_le_mul_right n hsize
    _ = Nat.floor (SemiRBM.maxSamples n c) * n + n := by ring
    _ ≤ 10 ^ 7 + n := by omega

/-- The all-pairs conditional log-probability, written entrywise. -/
theorem clogprob_all_pairs_entry (s : SemiRBM) (samples Z : Mat) (i m : ℕ) :
    (SemiRBM.clogprob_hid_vis s samples Z true).entry i m =
      (∑ h ∈ Finset.range (SemiRBM.condQ s samples).rows,
        Real.log ((SemiRBM.condQ s samples).entry h i) * Z.entry h m) +
      (∑ h ∈ Finset.range (SemiRBM.condQ s samples).rows,
        Real.log (1 - (SemiRBM.condQ s samples).entry h i) * (1 - Z.entry h m)) := rfl

/-- An entry of a batch's cross table equals the corresponding entry of the
cross table over the full `Y` (the slice only shifts the column index). -/
theorem uhBatch_entry (s : SemiRBM) (samples lw Y : Mat) (k j i : ℕ)
    (h1 : SemiRBM.batchStart samples.cols Y.cols k ≤ j) :
    (SemiRBM.uhBatch s samples lw Y k).entry i
        (j - SemiRBM.batchStart samples.cols Y.cols k) =
      (SemiRBM.clogprob_hid_vis s samples Y true).entry i j + lw.entry 0 i := by
  have haj : SemiRBM.batchStart samples.cols Y.cols k +
      (j - SemiRBM.batchStart samples.cols Y.cols k) = j := Nat.add_sub_cancel' h1
  show (SemiRBM.clogprob_hid_vis s samples
      (Y.sliceCols (SemiRBM.batchStart samples.cols Y.cols k)
        (SemiRBM.batchStop samples.cols Y.cols k)) true).entry i
      (j - SemiRBM.batchStart samples.cols Y.cols k) + lw.transpose.entry i 0 = _
  rw [clogprob_all_pairs_entry, clogprob_all_pairs_entry]
  have e1 : ∀ h : ℕ, (Y.sliceCols (SemiRBM.batchStart samples.cols Y.cols k)
      (SemiRBM.batchStop samples.cols Y.cols k)).entry h
        (j - SemiRBM.batchStart samples.cols Y.cols k) = Y.entry h j := by
    intro h
    show Y.entry h (SemiRBM.batchStart samples.cols Y.cols k +
      (j - SemiRBM.batchStart samples.cols Y.cols k)) = Y.entry h j
    rw [haj]
  have s1 : (∑ h ∈ Finset.range (SemiRBM.condQ s samples).rows,
      Real.log ((SemiRBM.condQ s samples).entry h i) *
        (Y.sliceCols (SemiRBM.batchStart samples.cols Y.cols k)
          (SemiRBM.batchStop samples.cols Y.cols k)).entry h
          (j - SemiRBM.batchStart samples.cols Y.cols k)) =
      ∑ h ∈ Finset.range (SemiRBM.condQ s samples).rows,
        Real.log ((SemiRBM.condQ s samples).entry h i) * Y.entry h j :=
    Finset.sum_congr rfl fun h _ => by rw [e1 h]
  have s2 : (∑ h ∈ Finset.range (SemiRBM.condQ s samples).rows,
      Real.log (1 - (SemiRBM.condQ s samples).entry h i) *
        (1 - (Y.sliceCols (SemiRBM.batchStart samples.cols Y.cols k)
          (SemiRBM.batchStop samples.cols Y.cols k)).entry h
          (j - SemiRBM.batchStart samples.cols Y.cols k))) =
      ∑ h ∈ Finset.range (SemiRBM.condQ s samples).rows,
        Real.log (1 - (SemiRBM.condQ s samples).entry h i) * (1 - Y.entry h j) :=
    Finset.sum_congr rfl fun h _ => by rw [e1 h]
  rw [s1, s2]
  rfl

/-- The log-sum-exp of a batch's cross table column equals the log-sum-exp
over the AIS samples of the full cross table column. -/
theorem lseRow_uhBatch (s : SemiRBM) (samples lw Y : Mat) (k j : ℕ)
    (h1 : SemiRBM.batchStart samples.cols Y.cols k ≤ j) :
    (SemiRBM.lseRow (SemiRBM.uhBatch s samples lw Y k)).entry 0
        (j - SemiRBM.batchStart samples.cols Y.cols k) =
      SemiRBM.logsumexp samples.cols
        (fun i => (SemiRBM.clogprob_hid_vis s samples Y true).entry i j + lw.entry 0 i) := by
  show SemiRBM.logsumexp samples.cols
      (fun i => (SemiRBM.uhBatch s samples lw Y k).entry i
        (j - SemiRBM.batchStart samples.cols Y.cols k)) = _
  exact congrArg (SemiRBM.logsumexp samples.cols)
    (funext fun i => uhBatch_entry s samples lw Y k j i h1)

/-- Every covered column of the slice-assignment loop holds the full-table
log-sum-exp value. -/
theorem uhLoop_eq_target (s : SemiRBM) (samples lw Y : Mat) (K j : ℕ)
    (hcov : ∃ k, k < K ∧ SemiRBM.batchStart samples.cols Y.cols k ≤ j ∧
      j < SemiRBM.batchStop samples.cols Y.cols k) :
    SemiRBM.uhLoop s samples lw Y K j =
      SemiRBM.logsumexp samples.cols
        (fun i => (SemiRBM.clogprob_hid_vis s samples Y true).entry i j + lw.entry 0 i) := by
  induction K with
  | zero => obtain ⟨k, hk, _, _⟩ := hcov; omega
  | succ K ih =>
    show (if SemiRBM.batchStart samples.cols Y.cols K ≤ j ∧
        j < SemiRBM.batchStop samples.cols Y.cols K then
        (SemiRBM.lseRow (SemiRBM.uhBatch s samples lw Y K)).entry 0
          (j - SemiRBM.batchStart samples.cols Y.cols K)
      else SemiRBM.uhLoop s samples lw Y K j) = _
    by_cases h : SemiRBM.batchStart samples.cols Y.cols K ≤ j ∧
        j < SemiRBM.batchStop samples.cols Y.cols K
    · rw [if_pos h]
      exact lseRow_uhBatch s samples lw Y K j h.1
    · rw [if_neg h]
      refine ih ?_
      obtain ⟨k, hk, h1, h2⟩ := hcov
      have hne : k ≠ K := fun he => h (he ▸ ⟨h1, h2⟩)
      exact ⟨k, by omega, h1, h2⟩

/-- Claim C7 (amended): with AIS samples attached, `_ulogprob_hid` assigns a
value to every column of `Y` by processing the columns in consecutive
batches; each batch's column count multiplied by the number of AIS samples
is at most `10^7 + num_ais_samples` (the stated budget of `10^7` can be
exceeded by up to one row of the cross table because the float batch
boundaries are truncated when slicing); and each column's result is the
stable log-sum-exp over the AIS samples of the conditional hidden
log-probability plus the corresponding AIS log-weight, minus the logarithm
of the number of AIS samples. -/
theorem claim_C7_amended (s : SemiRBM) (Y samples lw : Mat)
    (hais : s.ais = some (samples, lw)) (hpos : 0 < samples.cols) :
    (∃ R : Mat, SemiRBM.ulogprob_hid s Y = some R ∧ R.rows = 1 ∧ R.cols = Y.cols ∧
      ∀ j, j < Y.cols → R.entry 0 j =
        SemiRBM.logsumexp samples.cols
          (fun i => (SemiRBM.clogprob_hid_vis s samples Y true).entry i j + lw.entry 0 i)
          - Real.log samples.cols) ∧
    SemiRBM.batchStart samples.cols Y.cols 0 = 0 ∧
    (∀ k, k + 1 < SemiRBM.numBatches samples.cols Y.cols →
      SemiRBM.batchStop samples.cols Y.cols k = SemiRBM.batchStart samples.cols Y.cols (k + 1)) ∧
    (0 < Y.cols → SemiRBM.batchStop samples.cols Y.cols
      (SemiRBM.numBatches samples.cols Y.cols - 1) = Y.cols) ∧
    (∀ k, k < SemiRBM.numBatches samples.cols Y.cols →
      (SemiRBM.batchStop samples.cols Y.cols k - SemiRBM.batchStart samples.cols Y.cols k)
        * samples.cols ≤ 10 ^ 7 + samples.cols) := by
  refine ⟨?_, ?_, ?_, ?_, fun k _ => batch_budget samples.cols Y.cols k hpos⟩
  · refine ⟨⟨1, Y.cols, fun _ j =>
      SemiRBM.uhLoop s samples lw Y (SemiRBM.numBatches samples.cols Y.cols) j -
        Real.log samples.cols⟩, ?_, rfl, rfl, ?_⟩
    · show SemiRBM.ulogprob_hid s Y = _
      unfold SemiRBM.ulogprob_hid
      rw [hais]
    · intro j hj
      show SemiRBM.uhLoop s samples lw Y (SemiRBM.numBatches samples.cols Y.cols) j -
          Real.log samples.cols = _
      rw [uhLoop_eq_target s samples lw Y _ j
        (batch_cover samples.cols Y.cols j hpos hj)]
  · unfold SemiRBM.batchStart
    rw [Nat.cast_zero, zero_mul]
    exact Nat.floor_zero
  · intro k hk
    rw [batchStop_eq_bound, batchStart_eq_bound samples.cols Y.cols (k + 1) hpos hk]
  · intro hc
    have h1 : 1 ≤ SemiRBM.numBatches samples.cols Y.cols := by
      by_contra h
      have h0 : SemiRBM.numBatches samples.cols Y.cols = 0 := by omega
      have := batchBound_last samples.cols Y.cols hpos
      rw [h0, batchBound_zero] at this
      omega
    rw [batchStop_eq_bound, Nat.sub_add_cancel h1]
    exact batchBound_last samples.cols Y.cols hpos

/-- A concrete state with AIS samples attached (one sample). -/
def c7SmallState : SemiRBM := {trivState with ais := some (Mat.zeros 1 1, Mat.zeros 1 1)}

/-- Witness for the amended C7 at a concrete state. -/
theorem claim_C7_witness :
    c7SmallState.ais = some (Mat.zeros 1 1, Mat.zeros 1 1) ∧ 0 < (Mat.zeros 1 1).cols ∧
    (∃ R : Mat, SemiRBM.ulogprob_hid c7SmallState (Mat.zeros 1 1) = some R ∧
      R.rows = 1 ∧ R.cols = (Mat.zeros 1 1).cols ∧
      ∀ j, j < (Mat.zeros 1 1).cols → R.entry 0 j =
        SemiRBM.logsumexp (Mat.zeros 1 1).cols
          (fun i => (SemiRBM.clogprob_hid_vis c7SmallState (Mat.zeros 1 1)
            (Mat.zeros 1 1) true).entry i j + (Mat.zeros 1 1).entry 0 i)
          - Real.log (Mat.zeros 1 1).cols) :=
  ⟨rfl, Nat.one_pos,
    (claim_C7_amended c7SmallState (Mat.zeros 1 1) (Mat.zeros 1 1) (Mat.zeros 1 1)
      rfl Nat.one_pos).1⟩

/-- A large attached AIS sample set: 4,000,000 importance samples. -/
def aisSamplesBig : Mat := ⟨1, 4000000, fun _ _ => 0⟩

/-- Log-weights for the large AIS sample set. -/
def aisLwBig : Mat := ⟨1, 4000000, fun _ _ => 0⟩

/-- A concrete state with the large AIS sample set attached. -/
def c7State : SemiRBM := {trivState with ais := some (aisSamplesBig, aisLwBig)}

/-- A six-column hidden-state matrix. -/
def yWide : Mat := ⟨1, 6, fun _ _ => 0⟩

/-- Counterexample to claim C7 as stated.  With 4,000,000 AIS samples,
`max_samples = 1E7/4000000 = 2.5`, and the float slice boundaries of the
loop in `_ulogprob_hid` are truncated: on a six-column `Y` the batches cover
columns `[0,2)`, `[2,5)` and `[5,6)`, so the middle batch holds 3 columns
and its cross table has `3 × 4,000,000 = 12,000,000 > 10^7` entries,
violating the claimed budget. -/
theorem claim_C7_counterexample :
    (SemiRBM.ulogprob_hid c7State yWide).isSome = true ∧
    ¬ (∀ k, k < SemiRBM.numBatches aisSamplesBig.cols yWide.cols →
        (SemiRBM.batchStop aisSamplesBig.cols yWide.cols k -
          SemiRBM.batchStart aisSamplesBig.cols yWide.cols k) * aisSamplesBig.cols
          ≤ 10 ^ 7) := by
  refine ⟨rfl, fun h => ?_⟩
  have hM : SemiRBM.maxSamples 4000000 6 = 5 / 2 := by
    unfold SemiRBM.maxSamples
    rw [min_eq_left (by norm_num)]
    norm_num
  have hK : SemiRBM.numBatches 4000000 6 = 3 := by
    unfold SemiRBM.numBatches
    rw [hM, Nat.ceil_eq_iff (by norm_num)]
    norm_num
  have ha : SemiRBM.batchStart 4000000 6 1 = 2 := by
    unfold SemiRBM.batchStart
    rw [hM, Nat.floor_eq_iff (by norm_num)]
    norm_num
  have hb : SemiRBM.batchStop 4000000 6 1 = 5 := by
    unfold SemiRBM.batchStop
    rw [hM]
    have h5 : (((1 : ℕ) : ℚ) + 1) * (5 / 2) = 5 := by norm_num
    rw [h5, min_eq_left (by norm_num), Nat.floor_eq_iff (by norm_num)]
    norm_num
  have h1 := h 1 (by
    rw [show aisSamplesBig.cols = 4000000 from rfl, show yWide.cols = 6 from rfl, hK]
    omega)
  rw [show aisSamplesBig.cols = 4000000 from rfl, show yWide.cols = 6 from rfl,
    ha, hb] at h1
  norm_num at h1
